import Mathlib

/-!
# The scull storage engine (modules/02_scull/scull.c)

A shallow embedding of the scull character device: a chain of quantum sets,
each holding an array of `qset` pointers to blocks of `quantum` bytes, with
the operations `scull_trim`, `scull_open`, `scull_follow`, `scull_read`,
`scull_write` and `scull_llseek`.

Modelling conventions.
* The singly linked list `dev->data, ->next, ->next, ...` is a `List scull_qset`;
  `NULL` is the empty list, and a pointer into the chain is a position in it
  (the nodes before, the node, the nodes after).
* A pointer that may be `NULL` is an `Option`.
* `kmalloc` returns memory whose content is indeterminate; a heap byte is a
  `Cell`, `none` standing for a byte that nothing has been stored into.
* `kmalloc` and the user copies can fail.  Which ones fail is chosen by an
  `Env`: the k-th call of an operation fails when the oracle says so.
* The operations are run one at a time: the semaphore is free when an
  operation starts, so `down_interruptible` takes it without sleeping and
  returns 0.
* The fields `quantum` and `qset` hold `int` values that are not negative, and
  the cursor handed to `scull_read` and `scull_write` is a `loff_t` that is not
  negative, as the VFS guarantees: these are natural numbers.
* An `int` has 32 bits; `long`, `loff_t`, `size_t` and `unsigned long` have 64
  (the LP64 model of the 64-bit kernels).  Arithmetic in `int` and `loff_t`
  wraps (the kernel is compiled with `-fno-strict-overflow`): what is assigned
  to an `int` goes through `to_int`, the sums of `scull_llseek` through
  `to_loff_t`.  Division is the division of C, which truncates.  `size_t` and
  `unsigned long` values (the counts and the size) are natural numbers; the
  VFS hands over no cursor and count whose sum leaves `loff_t`.
* A division by zero (`itemsize` is 0) traps: the operation has no result
  (`none`).
-/

namespace Scull

/-- A byte of user data. -/
abbrev Byte := Fin 256

/-- A byte of kernel heap memory: `none` is a byte of a `kmalloc`ed area that
has not been stored into. -/
abbrev Cell := Option Byte

/-- A quantum: one `kmalloc(quantum)` area. -/
abbrev Quantum := List Cell

/-- The struct scull_qset: `data` is `NULL` or an array of pointers, each `NULL`
or a quantum.  The `next` pointer is the tail of the list the node sits in. -/
structure scull_qset where
  data : Option (List (Option Quantum))
deriving DecidableEq

/-- The struct scull_dev, without the semaphore and the cdev. -/
structure scull_dev where
  data : List scull_qset
  quantum : Nat
  qset : Nat
  size : Nat
deriving DecidableEq

/-- The load-time parameters `scull_quantum` and `scull_qset`. -/
structure Params where
  scull_quantum : Nat
  scull_qset : Nat
deriving DecidableEq

/-- The part of `struct file` the driver touches. -/
structure file where
  f_flags : Nat
  f_pos : Int
deriving DecidableEq

/-- The environment of one operation: whether its k-th `kmalloc` returns
memory, and whether its k-th `copy_to_user` / `copy_from_user` copies. -/
structure Env where
  kmalloc_ok : Nat → Bool
  copy_ok : Nat → Bool

/-- No `kmalloc` of the operation fails. -/
def Env.no_alloc_failure (env : Env) : Prop := ∀ k, env.kmalloc_ok k = true

/-- No user copy of the operation faults. -/
def Env.no_copy_fault (env : Env) : Prop := ∀ k, env.copy_ok k = true

/-- The environment in which nothing fails. -/
def Env.reliable : Env := ⟨fun _ => true, fun _ => true⟩

def ENOMEM : Int := 12
def EFAULT : Int := 14
def EINVAL : Int := 22

/-- Values of the open flags in the Linux generic ABI (include/uapi/asm-generic/fcntl.h). -/
def O_ACCMODE : Nat := 3
def O_WRONLY : Nat := 1
def O_APPEND : Nat := 1024

/-- The largest `int`. -/
def INT_MAX : Nat := 2147483647

/-- The value an `int` holds after `x` is assigned to it: `x` wrapped to 32
bits, two's complement. -/
def to_int (x : Int) : Int := (x + 2147483648) % 4294967296 - 2147483648

/-- The value a `loff_t` holds after `x` is assigned to it: `x` wrapped to 64
bits, two's complement. -/
def to_loff_t (x : Int) : Int :=
  (x + 9223372036854775808) % 18446744073709551616 - 9223372036854775808

/-- The number of times the body of `while (n--)` runs for an `int n`: `n`
times when `n` is not negative; a negative `n` is counted down to `INT_MIN`,
wraps to `INT_MAX` and reaches 0 after `2^32 + n` runs. -/
def while_count (n : Int) : Nat := (n % 4294967296).toNat

/-- A quantum set as `memset(qs, 0, sizeof(struct scull_qset))` leaves it. -/
def empty_qset : scull_qset := ⟨none⟩

/-- The device as `scull_init_module` sets it up: zeroed, then quantum and qset
taken from the parameters. -/
def scull_init_device (P : Params) : scull_dev :=
  { data := [], quantum := P.scull_quantum, qset := P.scull_qset, size := 0 }

/-- The function scull_trim: every quantum, array and node is freed, then the
fields are reset.  Returns 0. -/
def scull_trim (P : Params) (_dev : scull_dev) : Int × scull_dev :=
  (0, { data := [], quantum := P.scull_quantum, qset := P.scull_qset, size := 0 })

/-- Result of `scull_open`. -/
structure OpenResult where
  retval : Int
  dev : scull_dev
  filp : file
deriving DecidableEq

/-- The function scull_open. -/
def scull_open (P : Params) (dev : scull_dev) (filp : file) : OpenResult :=
  let dev1 :=
    if (filp.f_flags &&& O_ACCMODE) = O_WRONLY ∧ (filp.f_flags &&& O_APPEND) = 0 then
      (scull_trim P dev).2
    else dev
  let filp1 :=
    if (filp.f_flags &&& O_APPEND) ≠ 0 then { filp with f_pos := (dev1.size : Int) } else filp
  ⟨0, dev1, filp1⟩

/-- Result of `scull_follow`: the chain afterwards, the `kmalloc` count, and the
returned pointer, `none` for `NULL`, otherwise the node with the nodes after it
(`before` are the nodes in front of it). -/
structure Follow where
  a : Nat
  before : List scull_qset
  qs : Option (scull_qset × List scull_qset)

/-- The chain a `Follow` result stands for. -/
def Follow.chain (f : Follow) : List scull_qset :=
  match f.qs with
  | none => f.before
  | some (q, next) => f.before ++ q :: next

/-- The loop `while (n--)` of `scull_follow`, standing on node `qs`. -/
def follow_walk (env : Env) :
    Nat → Nat → List scull_qset → scull_qset → List scull_qset → Follow
  | 0, a, before, qs, next => ⟨a, before, some (qs, next)⟩
  | n + 1, a, before, qs, [] =>
    if env.kmalloc_ok a then follow_walk env n (a + 1) (before ++ [qs]) empty_qset []
    else ⟨a + 1, before ++ [qs], none⟩
  | n + 1, a, before, qs, q2 :: next => follow_walk env n a (before ++ [qs]) q2 next

/-- The function scull_follow, on the chain `dev->data`. -/
def scull_follow (env : Env) (a : Nat) (chain : List scull_qset) (n : Nat) : Follow :=
  match chain with
  | [] =>
    if env.kmalloc_ok a then follow_walk env n (a + 1) [] empty_qset []
    else ⟨a + 1, [], none⟩
  | qs :: next => follow_walk env n a [] qs next

/-- The local variable `int itemsize = quantum * qset` of `scull_read` and
`scull_write`. -/
def itemsize (quantum qset : Nat) : Int := to_int ((quantum : Int) * (qset : Int))

/-- How a loop of `scull_read` or `scull_write` was left. -/
inductive Status where
  | done
  | enomem
  | efault
  | nofuel
deriving DecidableEq

/-- The length of one copy: `quantum - q_pos` when more than that is left,
otherwise all that is left (the `if ((count - read) > quantum - q_pos)` of both
loops). -/
def chunk (quantum q_pos left : Nat) : Nat :=
  if left > quantum - q_pos then quantum - q_pos else left

/-- The pattern `if (!p) { p = kmalloc(...); if (!p) goto out; ... }`: the
pointer afterwards and the `kmalloc` count, `none` when `kmalloc` fails;
`fresh` is the object a successful `kmalloc` (and `memset`) gives. -/
def alloc_if_null {α : Type} (env : Env) (a : Nat) (p : Option α) (fresh : α) :
    Option (Nat × α) :=
  match p with
  | some x => some (a, x)
  | none => if env.kmalloc_ok a then some (a + 1, fresh) else none

/-- State after the `for` loop of `scull_read`. `stop` says that the loop was
left through `goto out_success`. -/
structure RSlots where
  st : Status
  stop : Bool
  c : Nat
  q_pos : Nat
  count : Nat
  out : List Cell

/-- The `for (i = s_pos; i < qset && read < count; i++)` loop of `scull_read`;
`n` is `qset - i`, `count` the bytes still to read; `out` is what the loop
copied to the user buffer. -/
def read_slots (env : Env) (quantum : Nat) (arr : List (Option Quantum)) :
    Nat → Nat → Nat → Nat → Nat → RSlots
  | 0, _, c, q_pos, count => ⟨.done, false, c, q_pos, count, []⟩
  | n + 1, i, c, q_pos, count =>
    if count = 0 then ⟨.done, false, c, q_pos, count, []⟩
    else
      match arr.getD i none with
      | none => ⟨.done, true, c, q_pos, count, []⟩
      | some blk =>
        let to_read := chunk quantum q_pos count
        if env.copy_ok c then
          let r := read_slots env quantum arr n (i + 1) (c + 1) 0 (count - to_read)
          { r with out := (blk.drop q_pos).take to_read ++ r.out }
        else ⟨.efault, false, c + 1, q_pos, count, []⟩

/-- State after the `do ... while` loop of `scull_read`. -/
structure RLoop where
  st : Status
  count : Nat
  out : List Cell

/-- The `do ... while (read < count)` loop of `scull_read`, standing on `dptr`;
`count` is the number of bytes still to read. -/
def read_loop (env : Env) (quantum qset : Nat) :
    scull_qset → List scull_qset → Nat → Nat → Nat → Nat → RLoop
  | dptr, next, s_pos, c, q_pos, count =>
    match dptr.data with
    | none => ⟨.done, count, []⟩
    | some arr =>
      match arr.getD s_pos none with
      | none => ⟨.done, count, []⟩
      | some _ =>
        let r := read_slots env quantum arr (qset - s_pos) s_pos c q_pos count
        match r.st with
        | .done =>
          if r.stop then ⟨.done, r.count, r.out⟩
          else
            match next with
            | [] => ⟨.done, r.count, r.out⟩
            | d2 :: nx =>
              if r.count = 0 then ⟨.done, r.count, r.out⟩
              else
                let l := read_loop env quantum qset d2 nx 0 r.c r.q_pos r.count
                { l with out := r.out ++ l.out }
        | st => ⟨st, r.count, r.out⟩

/-- Result of `scull_read`: the return value, the cursor, the device, and the
bytes copied to the user buffer. -/
structure ReadResult where
  retval : Int
  f_pos : Nat
  dev : scull_dev
  out : List Cell
deriving DecidableEq

/-- The function scull_read from the call of `scull_follow` on, with the
coordinates found: `n` is the number of links `scull_follow` walks, `count`
the clamped count. -/
def read_at (env : Env) (dev : scull_dev) (count f_pos n s_pos q_pos : Nat) :
    Option ReadResult :=
  let quantum := dev.quantum
  let qset := dev.qset
  let f := scull_follow env 0 dev.data n
  let dev1 := { dev with data := f.chain }
  match f.qs with
  | none => some ⟨0, f_pos, dev1, []⟩
  | some (dptr, next) =>
    let r := read_loop env quantum qset dptr next s_pos 0 q_pos count
    match r.st with
    | .done => some ⟨((count - r.count : Nat) : Int), f_pos + (count - r.count), dev1, r.out⟩
    | .efault => some ⟨-EFAULT, f_pos, dev1, r.out⟩
    | _ => none

/-- The function scull_read.  The division by an `itemsize` of 0 traps
(`none`); `quantum` is not 0 when `itemsize` is not.  `s_pos` and `q_pos` are
not negative, as the cursor is not. -/
def scull_read (env : Env) (dev : scull_dev) (count : Nat) (f_pos : Nat) :
    Option ReadResult :=
  let quantum := dev.quantum
  let qset := dev.qset
  let itemsize := itemsize quantum qset
  if f_pos ≥ dev.size then some ⟨0, f_pos, dev, []⟩
  else
    let count := if f_pos + count > dev.size then dev.size - f_pos else count
    if itemsize = 0 then none
    else
      let item := to_int (Int.tdiv (f_pos : Int) itemsize)
      let rest := to_int (Int.tmod (f_pos : Int) itemsize)
      let s_pos := to_int (Int.tdiv rest (quantum : Int))
      let q_pos := to_int (Int.tmod rest (quantum : Int))
      read_at env dev count f_pos (while_count item) s_pos.toNat q_pos.toNat

/-- What `copy_from_user(blk + q_pos, src, src.length)` leaves in the quantum. -/
def copy_into (blk : Quantum) (q_pos : Nat) (src : List Cell) : Quantum :=
  blk.take q_pos ++ src ++ blk.drop (q_pos + src.length)

/-- State after the `for` loop of `scull_write`; `a` is the number of calls
of `kmalloc` made so far, one that failed included. -/
structure WSlots where
  st : Status
  arr : List (Option Quantum)
  a : Nat
  c : Nat
  q_pos : Nat
  buf : List Byte

/-- The `for (i = s_pos; i < qset && written < count; i++)` loop of
`scull_write`; `n` is `qset - i` and `buf` the bytes still to write.  A copy
that faults leaves indeterminate bytes in the range it was to fill. -/
def write_slots (env : Env) (quantum : Nat) :
    Nat → Nat → Nat → Nat → List (Option Quantum) → Nat → List Byte → WSlots
  | 0, _, a, c, arr, q_pos, buf => ⟨.done, arr, a, c, q_pos, buf⟩
  | n + 1, i, a, c, arr, q_pos, buf =>
    if buf.length = 0 then ⟨.done, arr, a, c, q_pos, buf⟩
    else
      match alloc_if_null env a (arr.getD i none) (List.replicate quantum none) with
      | none => ⟨.enomem, arr, a + 1, c, q_pos, buf⟩
      | some (a1, blk) =>
        let to_write := chunk quantum q_pos buf.length
        if env.copy_ok c then
          write_slots env quantum n (i + 1) a1 (c + 1)
            (arr.set i (some (copy_into blk q_pos ((buf.take to_write).map some))))
            0 (buf.drop to_write)
        else
          ⟨.efault, arr.set i (some (copy_into blk q_pos (List.replicate to_write none))),
            a1, c + 1, q_pos, buf⟩

/-- The step `if (!dptr->next) { dptr->next = kmalloc(...); ... } dptr = dptr->next`
of `scull_write`: the node moved to and the nodes after it, `none` when the
`kmalloc` fails. -/
def link_next (env : Env) (a : Nat) :
    List scull_qset → Option (Nat × scull_qset × List scull_qset)
  | [] => if env.kmalloc_ok a then some (a + 1, empty_qset, []) else none
  | d2 :: nx => some (a, d2, nx)

/-- State after the `do ... while` loop of `scull_write`: the node the loop
started on and the nodes after it, and the number of calls of `kmalloc` made
so far, one that failed included. -/
structure WLoop where
  st : Status
  dptr : scull_qset
  next : List scull_qset
  a : Nat

/-- The `do ... while (written < count)` loop of `scull_write`, standing on
`dptr`.  The first argument bounds the number of iterations. -/
def write_loop (env : Env) (quantum qset : Nat) :
    Nat → Nat → Nat → scull_qset → List scull_qset → Nat → Nat → List Byte → WLoop
  | 0, a, _, dptr, next, _, _, _ => ⟨.nofuel, dptr, next, a⟩
  | fuel + 1, a, c, dptr, next, s_pos, q_pos, buf =>
    match alloc_if_null env a dptr.data (List.replicate qset none) with
    | none => ⟨.enomem, dptr, next, a + 1⟩
    | some (a1, arr) =>
      let r := write_slots env quantum (qset - s_pos) s_pos a1 c arr q_pos buf
      match r.st with
      | .done =>
        match link_next env r.a next with
        | none => ⟨.enomem, ⟨some r.arr⟩, next, r.a + 1⟩
        | some (a2, d2, nx) =>
          if r.buf.length = 0 then ⟨.done, ⟨some r.arr⟩, d2 :: nx, a2⟩
          else
            let w := write_loop env quantum qset fuel a2 r.c d2 nx 0 r.q_pos r.buf
            ⟨w.st, ⟨some r.arr⟩, w.dptr :: w.next, w.a⟩
      | st => ⟨st, ⟨some r.arr⟩, next, r.a⟩

/-- Result of `scull_write`: the return value, the cursor, the device, and
the number of calls of `kmalloc` the operation made, one that failed included. -/
structure WriteResult where
  retval : Int
  f_pos : Nat
  dev : scull_dev
  kmallocs : Nat
deriving DecidableEq

/-- The function scull_write from the call of `scull_follow` on, with the
coordinates found: `n` is the number of links `scull_follow` walks; `buf` is
the user buffer, `count` its length. -/
def write_at (env : Env) (dev : scull_dev) (buf : List Byte) (f_pos n s_pos q_pos : Nat) :
    Option WriteResult :=
  let quantum := dev.quantum
  let qset := dev.qset
  let f := scull_follow env 0 dev.data n
  match f.qs with
  | none => some ⟨-ENOMEM, f_pos, { dev with data := f.chain }, f.a⟩
  | some (dptr, next) =>
    let w := write_loop env quantum qset (buf.length + 1) f.a 0 dptr next s_pos q_pos buf
    let chain := f.before ++ w.dptr :: w.next
    match w.st with
    | .done =>
      let f_pos1 := f_pos + buf.length
      some ⟨(buf.length : Int), f_pos1,
        { dev with data := chain, size := if dev.size < f_pos1 then f_pos1 else dev.size }, w.a⟩
    | .enomem => some ⟨-ENOMEM, f_pos, { dev with data := chain }, w.a⟩
    | .efault => some ⟨-EFAULT, f_pos, { dev with data := chain }, w.a⟩
    | .nofuel => none

/-- The function scull_write.  The division by an `itemsize` of 0 traps
(`none`); `quantum` is not 0 when `itemsize` is not.  `s_pos` and `q_pos` are
not negative, as the cursor is not. -/
def scull_write (env : Env) (dev : scull_dev) (buf : List Byte) (f_pos : Nat) :
    Option WriteResult :=
  let quantum := dev.quantum
  let qset := dev.qset
  let itemsize := itemsize quantum qset
  if itemsize = 0 then none
  else
    let item := to_int (Int.tdiv (f_pos : Int) itemsize)
    let rest := to_int (Int.tmod (f_pos : Int) itemsize)
    let s_pos := to_int (Int.tdiv rest (quantum : Int))
    let q_pos := to_int (Int.tmod rest (quantum : Int))
    write_at env dev buf f_pos (while_count item) s_pos.toNat q_pos.toNat

/-- Result of `scull_llseek`. -/
structure SeekResult where
  retval : Int
  filp : file
deriving DecidableEq

/-- The function scull_llseek; `off` and the cursor are `loff_t` values, and
`newpos` is a `loff_t`: the sums wrap. -/
def scull_llseek (dev : scull_dev) (filp : file) (off : Int) (whence : Int) : SeekResult :=
  let go (newpos : Int) : SeekResult :=
    if newpos < 0 then ⟨-EINVAL, filp⟩ else ⟨newpos, { filp with f_pos := newpos }⟩
  if whence = 0 then go off
  else if whence = 1 then go (to_loff_t (filp.f_pos + off))
  else if whence = 2 then go (to_loff_t ((dev.size : Int) + off))
  else ⟨-EINVAL, filp⟩

/-! ## Observations on a store -/

/-- The block owned by slot `g`, counting the slots of the chain from 0
(slot `g` is slot `g % qset` of segment `g / qset`); `none` when the slot is
empty: the chain ends before the segment, the segment has no slot array, or
the pointer in the array is `NULL`. -/
def chain_slot (qset : Nat) (chain : List scull_qset) (g : Nat) : Option Quantum :=
  match chain[g / qset]? with
  | none => none
  | some seg =>
    match seg.data with
    | none => none
    | some arr => arr.getD (g % qset) none

/-- The heap byte stored for byte offset `o`, `none` when the slot holding the
offset is empty. -/
def chain_cell (quantum qset : Nat) (chain : List scull_qset) (o : Nat) : Option Cell :=
  match chain_slot qset chain (o / quantum) with
  | none => none
  | some blk => blk[o % quantum]?

/-- The heap byte at byte offset `o` of the area one slot array covers. -/
def arr_cell (quantum : Nat) (arr : List (Option Quantum)) (o : Nat) : Option Cell :=
  match arr.getD (o / quantum) none with
  | none => none
  | some blk => blk[o % quantum]?

/-- The block owned by slot `g` of the device. -/
def slot_at (dev : scull_dev) (g : Nat) : Option Quantum :=
  chain_slot dev.qset dev.data g

/-- The byte the device stores for offset `o`. -/
def byte_at (dev : scull_dev) (o : Nat) : Option Cell :=
  chain_cell dev.quantum dev.qset dev.data o

/-- The byte offset of the chain at which `scull_read` and `scull_write` start
for the cursor `f_pos`: the offset the coordinates they compute stand for.  It
is `f_pos` when nothing wraps. -/
def chain_offset (quantum qset f_pos : Nat) : Nat :=
  let item := to_int (Int.tdiv (f_pos : Int) (itemsize quantum qset))
  let rest := to_int (Int.tmod (f_pos : Int) (itemsize quantum qset))
  let s_pos := to_int (Int.tdiv rest (quantum : Int))
  let q_pos := to_int (Int.tmod rest (quantum : Int))
  while_count item * (quantum * qset) + (s_pos.toNat * quantum + q_pos.toNat)

/-- The number of bytes `scull_read` goes for: `count` clamped to the data. -/
def clamp (dev : scull_dev) (count p : Nat) : Nat :=
  if p + count > dev.size then dev.size - p else count

/-- A slot array made for `qset` slots of `quantum` bytes. -/
def wf_arr (quantum qset : Nat) (arr : List (Option Quantum)) : Prop :=
  arr.length = qset ∧ ∀ blk, some blk ∈ arr → blk.length = quantum

/-- Every slot array of the chain was made for `qset` slots of `quantum` bytes. -/
def wf_chain (quantum qset : Nat) (chain : List scull_qset) : Prop :=
  ∀ seg ∈ chain, ∀ arr, seg.data = some arr → wf_arr quantum qset arr

/-- The states a device goes through: set up by `scull_init_module`, then any
sequence of writes and reads (whatever fails in them), trims and opens.
`scull_llseek` does not touch the device. -/
inductive Reachable (P : Params) : scull_dev → Prop where
  | fresh : Reachable P (scull_init_device P)
  | write (env : Env) (dev : scull_dev) (buf : List Byte) (f_pos : Nat) (w : WriteResult) :
      Reachable P dev → scull_write env dev buf f_pos = some w → Reachable P w.dev
  | read (env : Env) (dev : scull_dev) (count f_pos : Nat) (r : ReadResult) :
      Reachable P dev → scull_read env dev count f_pos = some r → Reachable P r.dev
  | trim (dev : scull_dev) : Reachable P dev → Reachable P (scull_trim P dev).2
  | opened (dev : scull_dev) (filp : file) :
      Reachable P dev → Reachable P (scull_open P dev filp).dev

/-- The reachable states together with the largest end position `p + n` of a
write that ran to its end since the device was set up or last trimmed, 0 when
there was none.  A write that fails does not count, whatever it stored. -/
inductive Traced (P : Params) : scull_dev → Nat → Prop where
  | fresh : Traced P (scull_init_device P) 0
  | write_done (env : Env) (dev : scull_dev) (buf : List Byte) (f_pos : Nat) (w : WriteResult)
      (m : Nat) : Traced P dev m → scull_write env dev buf f_pos = some w →
      w.retval = (buf.length : Int) → Traced P w.dev (max m (f_pos + buf.length))
  | write_failed (env : Env) (dev : scull_dev) (buf : List Byte) (f_pos : Nat) (w : WriteResult)
      (m : Nat) : Traced P dev m → scull_write env dev buf f_pos = some w →
      w.retval < 0 → Traced P w.dev m
  | read (env : Env) (dev : scull_dev) (count f_pos : Nat) (r : ReadResult) (m : Nat) :
      Traced P dev m → scull_read env dev count f_pos = some r → Traced P r.dev m
  | trim (dev : scull_dev) (m : Nat) : Traced P dev m → Traced P (scull_trim P dev).2 0
  | opened (dev : scull_dev) (filp : file) (m : Nat) : Traced P dev m →
      Traced P (scull_open P dev filp).dev
        (if (filp.f_flags &&& O_ACCMODE) = O_WRONLY ∧ (filp.f_flags &&& O_APPEND) = 0 then 0
         else m)

/-- The calls of `kmalloc` number `a` to `a1 - 1` were made: all of them gave
memory, but for the last one when `failed` is true. -/
def AllocLog (env : Env) (a a1 : Nat) (failed : Bool) : Prop :=
  if failed then
    a < a1 ∧ env.kmalloc_ok (a1 - 1) = false ∧ ∀ k, a ≤ k → k < a1 - 1 → env.kmalloc_ok k = true
  else a ≤ a1 ∧ ∀ k, a ≤ k → k < a1 → env.kmalloc_ok k = true

/-! ## Module initialisation -/

/-- The `int` module parameters. -/
structure ModuleParams where
  scull_major : Int
  scull_minor : Int
  scull_nr_devs : Int
  scull_quantum : Int
  scull_qset : Int
deriving DecidableEq

/-- What the kernel answers to `scull_init_module`: the result of
`register_chrdev_region` or `alloc_chrdev_region`, whether `class_create`
gives a class, and whether the `kmalloc` of the device array gives memory. -/
structure InitEnv where
  chrdev_result : Int
  class_ok : Bool
  kmalloc_ok : Bool
deriving DecidableEq

/-- One element of `scull_devices` as the initialisation loop leaves it: zeroed
by `memset`, then the `int` fields quantum and qset assigned. -/
structure raw_dev where
  quantum : Int
  qset : Int
deriving DecidableEq

/-- The device a `raw_dev` is, when quantum and qset are not negative. -/
def raw_dev.dev (d : raw_dev) : Option scull_dev :=
  if 0 ≤ d.quantum ∧ 0 ≤ d.qset then
    some (scull_init_device ⟨d.quantum.toNat, d.qset.toNat⟩)
  else none

/-- The function scull_init_module: the return value and, when the devices
are set up, the device array.  On the way through `fail` the array is gone. -/
def scull_init_module (K : InitEnv) (M : ModuleParams) : Int × Option (List raw_dev) :=
  let result := K.chrdev_result
  if result < 0 then (result, none)
  else if K.class_ok = false then (result, none)
  else if K.kmalloc_ok = false then (-ENOMEM, none)
  else
    (0, some (List.replicate M.scull_nr_devs.toNat ⟨M.scull_quantum, M.scull_qset⟩))

/-! ## Example states -/

/-- The state of a device with quantum 2 and qset 2 after the bytes 1 to 7 are
written at offset 1: the data spans two quantum sets. -/
def two_segment_dev : scull_dev :=
  ⟨[⟨some [some [none, some 1], some [some 2, some 3]]⟩,
    ⟨some [some [some 4, some 5], some [some 6, some 7]]⟩, ⟨none⟩], 2, 2, 8⟩

/-- The state of a device with quantum 2 and qset 2 after the byte 65 is
written at offset 0. -/
def one_byte_dev : scull_dev :=
  ⟨[⟨some [some [some 65, none], none]⟩, ⟨none⟩], 2, 2, 1⟩

/-- The state of a fresh device with quantum 2 and qset 2 after an empty write
at offset 5: no slot owns a block. -/
def empty_write_dev : scull_dev :=
  ⟨[⟨none⟩, ⟨some [none, none]⟩, ⟨none⟩], 2, 2, 5⟩

/-- The state of a fresh device with quantum 2 and qset 2 after a write of the
bytes 1, 2, 3 at offset 0 in which the fourth `kmalloc` fails. -/
def failed_write_dev : scull_dev :=
  ⟨[⟨some [some [some 1, some 2], none]⟩], 2, 2, 0⟩

/-- The state of a fresh device with quantum 2 and qset 2 after the byte 66 is
written at offset `2^34`: `item` is `2^32` wrapped to an `int`, which is 0, so
the byte is in slot 0 of the first quantum set. -/
def wrapped_dev : scull_dev :=
  ⟨[⟨some [some [some 66, none], none]⟩, ⟨none⟩], 2, 2, 17179869185⟩

/-- An environment in which the `kmalloc` number 3 (the fourth) fails. -/
def fourth_kmalloc_fails : Env := ⟨fun k => k != 3, fun _ => true⟩

/-! ## Lemmas on the loops and on the chain -/

theorem chunk_eq_min (q qp l : Nat) : chunk q qp l = min l (q - qp) := by
  unfold chunk; split <;> omega

theorem write_slots_buf_le (env : Env) (q : Nat) :
    ∀ (n i a c : Nat) (arr : List (Option Quantum)) (qp : Nat) (buf : List Byte),
      (write_slots env q n i a c arr qp buf).buf.length ≤ buf.length := by
  intro n
  induction n with
  | zero => intro i a c arr qp buf; simp [write_slots]
  | succ n ih =>
    intro i a c arr qp buf
    rw [write_slots]
    split
    · simp
    · split
      · simp
      · split
        · exact le_trans (ih _ _ _ _ _ _) (by simp)
        · simp

theorem write_slots_q_pos_le (env : Env) (q : Nat) :
    ∀ (n i a c : Nat) (arr : List (Option Quantum)) (qp : Nat) (buf : List Byte),
      (write_slots env q n i a c arr qp buf).q_pos ≤ qp := by
  intro n
  induction n with
  | zero => intro i a c arr qp buf; simp [write_slots]
  | succ n ih =>
    intro i a c arr qp buf
    rw [write_slots]
    split
    · simp
    · split
      · simp
      · split
        · exact le_trans (ih _ _ _ _ _ _) (Nat.zero_le _)
        · simp

theorem write_slots_st_ne_nofuel (env : Env) (q : Nat) :
    ∀ (n i a c : Nat) (arr : List (Option Quantum)) (qp : Nat) (buf : List Byte),
      (write_slots env q n i a c arr qp buf).st ≠ .nofuel := by
  intro n
  induction n with
  | zero => intro i a c arr qp buf; simp [write_slots]
  | succ n ih =>
    intro i a c arr qp buf
    rw [write_slots]
    split
    · simp
    · split
      · simp
      · split
        · exact ih _ _ _ _ _ _
        · simp

theorem write_slots_progress (env : Env) (q : Nat) (n i a c : Nat)
    (arr : List (Option Quantum)) (qp : Nat) (buf : List Byte)
    (hn : 0 < n) (hq : qp < q) (hb : buf ≠ [])
    (hst : (write_slots env q n i a c arr qp buf).st = .done) :
    (write_slots env q n i a c arr qp buf).buf.length < buf.length := by
  obtain ⟨m, rfl⟩ : ∃ m, n = m + 1 := ⟨n - 1, by omega⟩
  have hlen : 0 < buf.length := List.length_pos.mpr hb
  revert hst
  rw [write_slots]
  split
  · omega
  · split
    · simp
    · split
      · intro _
        refine lt_of_le_of_lt (write_slots_buf_le _ _ _ _ _ _ _ _ _) ?_
        simp only [List.length_drop, chunk_eq_min]
        omega
      · simp

theorem write_loop_fuel (env : Env) (q qs : Nat) (hqs : 0 < qs) :
    ∀ (fuel a c : Nat) (dptr : scull_qset) (next : List scull_qset) (sp qp : Nat)
      (buf : List Byte), buf.length < fuel → sp < qs → qp < q →
      (write_loop env q qs fuel a c dptr next sp qp buf).st ≠ .nofuel := by
  intro fuel
  induction fuel with
  | zero => intro a c dptr next sp qp buf h; omega
  | succ fuel ih =>
    intro a c dptr next sp qp buf hf hsp hqp
    rw [write_loop]
    split
    · simp
    · rename_i a1 arr hal
      simp only
      split
      · rename_i hst
        split
        · simp
        · split
          · simp
          · rename_i hne
            simp only
            apply ih
            · have := write_slots_progress env q _ _ _ _ _ _ _ (by omega) hqp
                (by
                  intro h
                  have hle := write_slots_buf_le env q (qs - sp) sp a1 c arr qp buf
                  rw [h] at hle
                  simp at hle
                  exact hne (by simp [h, hle])) hst
              omega
            · exact hqs
            · exact lt_of_le_of_lt (write_slots_q_pos_le _ _ _ _ _ _ _ _ _) hqp
      · rename_i st hst
        exact write_slots_st_ne_nofuel _ _ _ _ _ _ _ _ _

/-- What `follow_walk` does to the chain `before ++ qs :: next`: it appends
`m` empty quantum sets and, unless a `kmalloc` fails, returns the node `n`
links after `qs`. -/
theorem follow_walk_spec (env : Env) :
    ∀ (n a : Nat) (before : List scull_qset) (qs : scull_qset) (next : List scull_qset),
      ∃ m, (follow_walk env n a before qs next).chain
            = before ++ qs :: next ++ List.replicate m empty_qset ∧
        m ≤ n - next.length ∧
        (∀ x, (follow_walk env n a before qs next).qs = some x →
          (follow_walk env n a before qs next).before.length = before.length + n ∧
          m = n - next.length) ∧
        (env.no_alloc_failure ∨ n ≤ next.length →
          (follow_walk env n a before qs next).qs ≠ none) := by
  intro n
  induction n with
  | zero =>
    intro a before qs next
    exact ⟨0, by simp [follow_walk, Follow.chain], by simp, by simp [follow_walk],
      by simp [follow_walk]⟩
  | succ n ih =>
    intro a before qs next
    cases next with
    | nil =>
      rw [follow_walk]
      by_cases hk : env.kmalloc_ok a = true
      · simp only [hk, if_true]
        obtain ⟨m, h1, h2, h3, h4⟩ := ih (a + 1) (before ++ [qs]) empty_qset []
        refine ⟨m + 1, ?_, ?_, ?_, ?_⟩
        · rw [h1]; simp [List.replicate_succ]
        · simp at h2 ⊢; omega
        · intro x hx
          obtain ⟨h5, h6⟩ := h3 x hx
          simp at h5 h6 ⊢
          omega
        · intro h
          apply h4
          rcases h with h | h
          · exact Or.inl h
          · simp at h
      · simp only [hk]
        refine ⟨0, by simp [Follow.chain], by simp, by simp, ?_⟩
        intro h
        rcases h with h | h
        · exact absurd (h a) hk
        · simp at h
    | cons q2 nx =>
      rw [follow_walk]
      obtain ⟨m, h1, h2, h3, h4⟩ := ih a (before ++ [qs]) q2 nx
      refine ⟨m, ?_, ?_, ?_, ?_⟩
      · rw [h1]; simp
      · simp at h2 ⊢; omega
      · intro x hx
        obtain ⟨h5, h6⟩ := h3 x hx
        simp at h5 h6 ⊢
        omega
      · intro h
        apply h4
        rcases h with h | h
        · exact Or.inl h
        · right; simpa using h

/-- What `scull_follow` does to the chain: it appends `m` empty quantum sets
and, unless a `kmalloc` fails, returns node `n`. -/
theorem scull_follow_spec (env : Env) (a : Nat) (chain : List scull_qset) (n : Nat) :
    ∃ m, (scull_follow env a chain n).chain = chain ++ List.replicate m empty_qset ∧
      m ≤ n + 1 - chain.length ∧
      (∀ x, (scull_follow env a chain n).qs = some x →
        (scull_follow env a chain n).before.length = n ∧ m = n + 1 - chain.length) ∧
      (env.no_alloc_failure ∨ n < chain.length → (scull_follow env a chain n).qs ≠ none) := by
  cases chain with
  | nil =>
    rw [scull_follow]
    by_cases hk : env.kmalloc_ok a = true
    · simp only [hk, if_true]
      obtain ⟨m, h1, h2, h3, h4⟩ := follow_walk_spec env n (a + 1) [] empty_qset []
      refine ⟨m + 1, ?_, ?_, ?_, ?_⟩
      · rw [h1]; simp [List.replicate_succ]
      · simp at h2 ⊢; omega
      · intro x hx
        obtain ⟨h5, h6⟩ := h3 x hx
        simp at h5 h6 ⊢
        omega
      · intro h
        apply h4
        rcases h with h | h
        · exact Or.inl h
        · simp at h
    · simp only [hk]
      refine ⟨0, by simp [Follow.chain], by simp, by simp, ?_⟩
      intro h
      rcases h with h | h
      · exact absurd (h a) hk
      · simp at h
  | cons q2 nx =>
    rw [scull_follow]
    obtain ⟨m, h1, h2, h3, h4⟩ := follow_walk_spec env n a [] q2 nx
    refine ⟨m, ?_, ?_, ?_, ?_⟩
    · rw [h1]; simp
    · simp at h2 ⊢; omega
    · intro x hx
      obtain ⟨h5, h6⟩ := h3 x hx
      simp at h5 h6 ⊢
      omega
    · intro h
      apply h4
      rcases h with h | h
      · exact Or.inl h
      · right; simp at h; omega

theorem alloc_if_null_some {α : Type} (env : Env) (a : Nat) (p : Option α) (fresh : α)
    (a1 : Nat) (x : α) (h : alloc_if_null env a p fresh = some (a1, x)) :
    (p = some x ∧ a1 = a) ∨ (p = none ∧ x = fresh ∧ a1 = a + 1) := by
  cases p with
  | none =>
    simp only [alloc_if_null] at h
    split at h
    · simp at h; right; exact ⟨rfl, h.2.symm, h.1.symm⟩
    · simp at h
  | some y =>
    simp only [alloc_if_null] at h
    simp at h
    left; exact ⟨by rw [h.2], h.1.symm⟩

theorem alloc_if_null_ok {α : Type} (env : Env) (h : env.no_alloc_failure) (a : Nat)
    (p : Option α) (fresh : α) : alloc_if_null env a p fresh ≠ none := by
  cases p with
  | none => simp [alloc_if_null, h a]
  | some y => simp [alloc_if_null]

theorem copy_into_length (blk : Quantum) (qp : Nat) (src : List Cell)
    (h : qp + src.length ≤ blk.length) : (copy_into blk qp src).length = blk.length := by
  simp [copy_into]; omega

theorem copy_into_getElem (blk : Quantum) (qp : Nat) (src : List Cell) (j : Nat)
    (h : qp ≤ blk.length) (hj : j < src.length) :
    (copy_into blk qp src)[qp + j]? = src[j]? := by
  unfold copy_into
  rw [List.append_assoc, List.getElem?_append_right (by simp [h])]
  simp [Nat.min_eq_left h, List.getElem?_append_left hj]

theorem wf_arr_set (q qs : Nat) (arr : List (Option Quantum)) (i : Nat) (blk : Quantum)
    (h : wf_arr q qs arr) (hb : blk.length = q) : wf_arr q qs (arr.set i (some blk)) := by
  refine ⟨by simp [h.1], ?_⟩
  intro b hb2
  rcases List.mem_or_eq_of_mem_set hb2 with h1 | h1
  · exact h.2 b h1
  · simp at h1; rw [h1]; exact hb

theorem wf_arr_replicate (q qs : Nat) : wf_arr q qs (List.replicate qs none) := by
  refine ⟨by simp, ?_⟩
  intro b hb
  simp [List.mem_replicate] at hb

theorem wf_arr_getD (q qs : Nat) (arr : List (Option Quantum)) (i : Nat) (blk : Quantum)
    (h : wf_arr q qs arr) (hb : arr.getD i none = some blk) : blk.length = q := by
  apply h.2
  rw [List.getD_eq_getElem?_getD] at hb
  cases hi : arr[i]? with
  | none => simp [hi] at hb
  | some x =>
    simp [hi] at hb
    rw [← hb]
    exact List.getElem?_mem hi

theorem chunk_le (q qp l : Nat) : chunk q qp l ≤ l := by
  rw [chunk_eq_min]; omega

theorem chunk_le_room (q qp l : Nat) : chunk q qp l ≤ q - qp := by
  rw [chunk_eq_min]; omega

/-- The block a slot holds once `alloc_if_null` has run has `quantum` bytes. -/
theorem alloc_block_length (env : Env) (q qs : Nat) (arr : List (Option Quantum)) (i a a1 : Nat)
    (blk : Quantum) (h : wf_arr q qs arr)
    (hal : alloc_if_null env a (arr.getD i none) (List.replicate q none) = some (a1, blk)) :
    blk.length = q := by
  rcases alloc_if_null_some env a _ _ a1 blk hal with ⟨h1, _⟩ | ⟨_, h1, _⟩
  · exact wf_arr_getD q qs arr i blk h h1
  · rw [h1]; simp

theorem write_slots_wf (env : Env) (q qs : Nat) :
    ∀ (n i a c : Nat) (arr : List (Option Quantum)) (qp : Nat) (buf : List Byte),
      wf_arr q qs arr → qp ≤ q →
      wf_arr q qs (write_slots env q n i a c arr qp buf).arr := by
  intro n
  induction n with
  | zero => intro i a c arr qp buf h _; simpa [write_slots] using h
  | succ n ih =>
    intro i a c arr qp buf h hqp
    rw [write_slots]
    split
    · exact h
    · split
      · exact h
      · rename_i a1 blk hal
        have hbl := alloc_block_length env q qs arr i a a1 blk h hal
        have hch := chunk_le_room q qp buf.length
        have hch2 := chunk_le q qp buf.length
        split
        · apply ih _ _ _ _ _ _ _ (Nat.zero_le _)
          apply wf_arr_set _ _ _ _ _ h
          rw [copy_into_length]
          · exact hbl
          · simp; omega
        · apply wf_arr_set _ _ _ _ _ h
          rw [copy_into_length]
          · exact hbl
          · simp; omega

/-- The `for` loop of `scull_write` leaves the slots in front of `i` alone. -/
theorem write_slots_frame_below (env : Env) (q : Nat) :
    ∀ (n i a c : Nat) (arr : List (Option Quantum)) (qp : Nat) (buf : List Byte) (j : Nat),
      j < i → (write_slots env q n i a c arr qp buf).arr.getD j none = arr.getD j none := by
  intro n
  induction n with
  | zero => intro i a c arr qp buf j _; simp [write_slots]
  | succ n ih =>
    intro i a c arr qp buf j hj
    rw [write_slots]
    split
    · rfl
    · split
      · rfl
      · split
        · rw [ih _ _ _ _ _ _ j (by omega)]
          simp [List.getD_eq_getElem?_getD, List.getElem?_set, show i ≠ j by omega]
        · simp [List.getD_eq_getElem?_getD, List.getElem?_set, show i ≠ j by omega]

theorem arr_cell_slot (q : Nat) (arr : List (Option Quantum)) (i r : Nat) (blk : Quantum)
    (hr : r < q) (hb : arr.getD i none = some blk) :
    arr_cell q arr (i * q + r) = blk[r]? := by
  have h1 : (i * q + r) / q = i := by
    rw [Nat.add_comm, Nat.add_mul_div_right _ _ (by omega), Nat.div_eq_of_lt hr]; simp
  have h2 : (i * q + r) % q = r := by
    rw [Nat.add_comm, Nat.add_mul_mod_self_right, Nat.mod_eq_of_lt hr]
  simp only [arr_cell, h1, h2, hb]

/-- The `for` loop of `scull_write`, when it is not left through `goto out`:
it stores the first `k` bytes of `buf` at the offsets from `i * q + qp` on,
where `k` is all of `buf` or what the array holds from there. -/
theorem write_slots_done (env : Env) (q qs : Nat) :
    ∀ (n i a c : Nat) (arr : List (Option Quantum)) (qp : Nat) (buf : List Byte),
      wf_arr q qs arr → i + n = qs → qp < q → (0 < n ∨ qp = 0) →
      (write_slots env q n i a c arr qp buf).st = .done →
      ∃ k, k ≤ buf.length ∧ (write_slots env q n i a c arr qp buf).buf = buf.drop k ∧
        k + qp ≤ n * q ∧
        ((write_slots env q n i a c arr qp buf).buf ≠ [] → k + qp = n * q) ∧
        ∀ j, j < k →
          arr_cell q (write_slots env q n i a c arr qp buf).arr (i * q + qp + j)
            = (buf[j]?).map some := by
  intro n
  induction n with
  | zero =>
    intro i a c arr qp buf _ _ _ h0 _
    have : qp = 0 := by omega
    exact ⟨0, by simp, by simp [write_slots], by simp [this], by simp [this], by simp⟩
  | succ n ih =>
    intro i a c arr qp buf hwf hin hqp _ hst
    rw [write_slots] at hst ⊢
    split at hst
    · rename_i hb
      rw [if_pos hb]
      have hnil : buf = [] := List.length_eq_zero.mp hb
      exact ⟨0, by simp, by simp, by nlinarith, by simp [hnil], by simp⟩
    · rename_i hb
      rw [if_neg hb]
      split at hst
      · simp at hst
      · rename_i a1 blk hal
        simp only
        have hbl := alloc_block_length env q qs arr i a a1 blk hwf hal
        have hch := chunk_le_room q qp buf.length
        have hch2 := chunk_le q qp buf.length
        have hmin := chunk_eq_min q qp buf.length
        split at hst
        · rename_i hc
          rw [if_pos hc]
          have hwf2 : wf_arr q qs (arr.set i (some (copy_into blk qp
              ((buf.take (chunk q qp buf.length)).map some)))) := by
            apply wf_arr_set _ _ _ _ _ hwf
            rw [copy_into_length]
            · exact hbl
            · simp; omega
          obtain ⟨k, hk1, hk2, hk3, hk4, hk5⟩ :=
            ih (i + 1) a1 (c + 1) _ 0 (buf.drop (chunk q qp buf.length)) hwf2 (by omega)
              (by omega) (Or.inr rfl) hst
          refine ⟨chunk q qp buf.length + k, ?_, ?_, ?_, ?_, ?_⟩
          · simp at hk1; omega
          · rw [hk2]; simp [Nat.add_comm]
          · rw [Nat.succ_mul]; omega
          · intro hne
            have hk := hk4 hne
            have : k ≤ (buf.drop (chunk q qp buf.length)).length := hk1
            rw [hk2] at hne
            have hlen : 0 < (List.drop k (List.drop (chunk q qp buf.length) buf)).length :=
              List.length_pos.mpr hne
            simp at hlen
            rw [Nat.succ_mul]; omega
          · intro j hj
            by_cases hjt : j < chunk q qp buf.length
            · have hslot := write_slots_frame_below env q n (i + 1) a1 (c + 1)
                (arr.set i (some (copy_into blk qp ((buf.take (chunk q qp buf.length)).map some))))
                0 (buf.drop (chunk q qp buf.length)) i (by omega)
              have hi : i < arr.length := by rw [hwf.1]; omega
              rw [List.getD_eq_getElem?_getD (l := arr.set i _), List.getElem?_set_self hi] at hslot
              simp only [Option.getD_some] at hslot
              rw [Nat.add_assoc, arr_cell_slot q _ i (qp + j) _ (by omega) hslot]
              rw [copy_into_getElem _ _ _ _ (by omega) (by simp; omega)]
              simp [List.getElem?_take, hjt]
            · have hk0 : 0 < k := by omega
              have hlen : 0 < (buf.drop (chunk q qp buf.length)).length := by omega
              simp at hlen
              have ht : chunk q qp buf.length = q - qp := by omega
              have := hk5 (j - chunk q qp buf.length) (by omega)
              rw [List.getElem?_drop] at this
              rw [show chunk q qp buf.length + (j - chunk q qp buf.length) = j by omega] at this
              rw [← this]
              congr 1
              rw [Nat.succ_mul, ht]; omega
        · simp at hst

theorem wf_chain_cons (q qs : Nat) (s : scull_qset) (chain : List scull_qset) :
    wf_chain q qs (s :: chain) ↔
      (∀ arr, s.data = some arr → wf_arr q qs arr) ∧ wf_chain q qs chain := by
  simp [wf_chain]

theorem wf_chain_append (q qs : Nat) (c1 c2 : List scull_qset) :
    wf_chain q qs (c1 ++ c2) ↔ wf_chain q qs c1 ∧ wf_chain q qs c2 := by
  simp only [wf_chain, List.mem_append]
  constructor
  · intro h
    exact ⟨fun s hs => h s (Or.inl hs), fun s hs => h s (Or.inr hs)⟩
  · rintro ⟨h1, h2⟩ s (hs | hs)
    · exact h1 s hs
    · exact h2 s hs

theorem wf_chain_replicate_empty (q qs m : Nat) :
    wf_chain q qs (List.replicate m empty_qset) := by
  intro s hs arr harr
  rw [List.mem_replicate] at hs
  rw [hs.2] at harr
  simp [empty_qset] at harr

theorem chain_cell_head (q qs : Nat) (arr : List (Option Quantum)) (rest : List scull_qset)
    (o : Nat) (ho : o < q * qs) :
    chain_cell q qs (⟨some arr⟩ :: rest) o = arr_cell q arr o := by
  have h1 : o / q < qs := Nat.div_lt_of_lt_mul ho
  simp [chain_cell, chain_slot, arr_cell, Nat.div_eq_of_lt h1, Nat.mod_eq_of_lt h1]

theorem chain_slot_tail (qs : Nat) (hqs : 0 < qs) (seg : scull_qset) (rest : List scull_qset)
    (g : Nat) : chain_slot qs (seg :: rest) (qs + g) = chain_slot qs rest g := by
  have h1 : (qs + g) / qs = g / qs + 1 := by
    rw [Nat.add_comm, Nat.add_div_right _ hqs]
  have h2 : (qs + g) % qs = g % qs := by simp
  simp [chain_slot, h1, h2]

theorem chain_cell_tail (q qs : Nat) (hq : 0 < q) (hqs : 0 < qs) (seg : scull_qset)
    (rest : List scull_qset) (o : Nat) :
    chain_cell q qs (seg :: rest) (q * qs + o) = chain_cell q qs rest o := by
  have h1 : (q * qs + o) / q = qs + o / q := by
    rw [Nat.mul_add_div hq]
  have h2 : (q * qs + o) % q = o % q := by simp [Nat.mul_add_mod]
  simp only [chain_cell, h1, h2, chain_slot_tail qs hqs]

theorem link_next_spec (env : Env) (a : Nat) (next : List scull_qset) (a2 : Nat)
    (d2 : scull_qset) (nx : List scull_qset) (h : link_next env a next = some (a2, d2, nx)) :
    d2 :: nx = (if next = [] then [empty_qset] else next) := by
  cases next with
  | nil =>
    simp only [link_next] at h
    split at h
    · simp at h; simp [h.2.1, h.2.2]
    · simp at h
  | cons x xs =>
    simp [link_next] at h
    simp [h.2.1, h.2.2]

theorem link_next_ok (env : Env) (h : env.no_alloc_failure) (a : Nat)
    (next : List scull_qset) : link_next env a next ≠ none := by
  cases next with
  | nil => simp [link_next, h a]
  | cons x xs => simp [link_next]

theorem write_slots_q_pos_zero (env : Env) (q : Nat) (n i a c : Nat)
    (arr : List (Option Quantum)) (qp : Nat) (buf : List Byte)
    (hn : 0 < n) (hb : buf ≠ [])
    (hst : (write_slots env q n i a c arr qp buf).st = .done) :
    (write_slots env q n i a c arr qp buf).q_pos = 0 := by
  obtain ⟨m, rfl⟩ : ∃ m, n = m + 1 := ⟨n - 1, by omega⟩
  have hlen : 0 < buf.length := List.length_pos.mpr hb
  revert hst
  rw [write_slots]
  split
  · omega
  · split
    · simp
    · split
      · intro _
        exact Nat.le_zero.mp (write_slots_q_pos_le _ _ _ _ _ _ _ _ _)
      · simp

/-- The array `alloc_if_null` leaves in a node of a well-formed chain is well formed. -/
theorem alloc_arr_wf (env : Env) (q qs : Nat) (dptr : scull_qset) (a a1 : Nat)
    (arr : List (Option Quantum)) (h : ∀ arr, dptr.data = some arr → wf_arr q qs arr)
    (hal : alloc_if_null env a dptr.data (List.replicate qs none) = some (a1, arr)) :
    wf_arr q qs arr := by
  rcases alloc_if_null_some env a _ _ a1 arr hal with ⟨h1, _⟩ | ⟨_, h1, _⟩
  · exact h arr h1
  · rw [h1]; exact wf_arr_replicate q qs

/-- The `do ... while` loop of `scull_write` keeps the chain well formed and
never shortens it, however it is left. -/
theorem write_loop_wf (env : Env) (q qs : Nat) :
    ∀ (fuel a c : Nat) (dptr : scull_qset) (next : List scull_qset) (sp qp : Nat)
      (buf : List Byte), wf_chain q qs (dptr :: next) → qp ≤ q →
      wf_chain q qs ((write_loop env q qs fuel a c dptr next sp qp buf).dptr ::
        (write_loop env q qs fuel a c dptr next sp qp buf).next) ∧
      next.length ≤ (write_loop env q qs fuel a c dptr next sp qp buf).next.length := by
  intro fuel
  induction fuel with
  | zero => intro a c dptr next sp qp buf h _; exact ⟨by simpa [write_loop] using h, by simp [write_loop]⟩
  | succ fuel ih =>
    intro a c dptr next sp qp buf h hqp
    rw [wf_chain_cons] at h
    rw [write_loop]
    split
    · exact ⟨(wf_chain_cons _ _ _ _).mpr h, le_refl _⟩
    · rename_i a1 arr hal
      have hwa := alloc_arr_wf env q qs dptr a a1 arr h.1 hal
      have hwr := write_slots_wf env q qs (qs - sp) sp a1 c arr qp buf hwa hqp
      simp only
      split
      · split
        · refine ⟨(wf_chain_cons _ _ _ _).mpr ⟨?_, h.2⟩, le_refl _⟩
          intro arr2 h2; simp at h2; rw [← h2]; exact hwr
        · rename_i a2 d2 nx hln
          have hl := link_next_spec env _ next a2 d2 nx hln
          have hwn : wf_chain q qs (d2 :: nx) := by
            rw [hl]
            split
            · exact wf_chain_replicate_empty q qs 1
            · exact h.2
          have hlen : next.length ≤ (d2 :: nx).length := by
            rw [hl]; split <;> simp [*]
          split
          · refine ⟨(wf_chain_cons _ _ _ _).mpr ⟨?_, hwn⟩, hlen⟩
            intro arr2 h2; simp at h2; rw [← h2]; exact hwr
          · simp only
            obtain ⟨h3, h4⟩ := ih a2 (write_slots env q (qs - sp) sp a1 c arr qp buf).c d2 nx 0
              (write_slots env q (qs - sp) sp a1 c arr qp buf).q_pos
              (write_slots env q (qs - sp) sp a1 c arr qp buf).buf hwn
              (le_trans (write_slots_q_pos_le _ _ _ _ _ _ _ _ _) hqp)
            refine ⟨(wf_chain_cons _ _ _ _).mpr ⟨?_, h3⟩, ?_⟩
            · intro arr2 h2; simp at h2; rw [← h2]; exact hwr
            · simp at hlen ⊢; omega
      · refine ⟨(wf_chain_cons _ _ _ _).mpr ⟨?_, h.2⟩, le_refl _⟩
        intro arr2 h2; simp at h2; rw [← h2]; exact hwr

/-- The `do ... while` loop of `scull_write`, when it runs to its end: the
chain then reaches one segment past the last byte written, and every byte of
`buf` is stored at its offset. -/
theorem write_loop_done (env : Env) (q qs : Nat) (hqs : 0 < qs) :
    ∀ (fuel a c : Nat) (dptr : scull_qset) (next : List scull_qset) (sp qp : Nat)
      (buf : List Byte), wf_chain q qs (dptr :: next) → sp < qs → qp < q →
      (write_loop env q qs fuel a c dptr next sp qp buf).st = .done →
      sp * q + qp + buf.length + q * qs ≤
        ((write_loop env q qs fuel a c dptr next sp qp buf).next.length + 1) * (q * qs) ∧
      ∀ j, j < buf.length →
        chain_cell q qs ((write_loop env q qs fuel a c dptr next sp qp buf).dptr ::
          (write_loop env q qs fuel a c dptr next sp qp buf).next) (sp * q + qp + j)
          = (buf[j]?).map some := by
  intro fuel
  induction fuel with
  | zero => intro a c dptr next sp qp buf _ _ _ h; simp [write_loop] at h
  | succ fuel ih =>
    intro a c dptr next sp qp buf h hsp hqp hst
    have hq : 0 < q := by omega
    rw [wf_chain_cons] at h
    rw [write_loop] at hst ⊢
    split at hst
    · simp at hst
    · rename_i a1 arr hal
      have hwa := alloc_arr_wf env q qs dptr a a1 arr h.1 hal
      simp only at hst ⊢
      split at hst
      · rename_i hrst
        obtain ⟨k, hk1, hk2, hk3, hk4, hk5⟩ := write_slots_done env q qs (qs - sp) sp a1 c arr qp
          buf hwa (by omega) hqp (Or.inl (by omega)) hrst
        have hmul : (qs - sp) * q + sp * q = q * qs := by
          rw [← Nat.add_mul, Nat.mul_comm]; congr 1; omega
        split at hst
        · simp at hst
        · rename_i a2 d2 nx hln
          have hl := link_next_spec env _ next a2 d2 nx hln
          have hwn : wf_chain q qs (d2 :: nx) := by
            rw [hl]
            split
            · exact wf_chain_replicate_empty q qs 1
            · exact h.2
          split at hst
          · rename_i hb0
            rw [if_pos hb0]
            have hkb : k = buf.length := by
              rw [hk2] at hb0; simp at hb0; omega
            refine ⟨?_, ?_⟩
            · simp only [List.length_cons]
              have : 2 * (q * qs) ≤ (nx.length + 1 + 1) * (q * qs) :=
                Nat.mul_le_mul_right _ (by omega)
              omega
            · intro j hj
              rw [chain_cell_head q qs _ _ _ (by omega)]
              exact hk5 j (by omega)
          · rename_i hb0
            rw [if_neg hb0]
            simp only at hst ⊢
            have hne : (write_slots env q (qs - sp) sp a1 c arr qp buf).buf ≠ [] := by
              intro h0; simp [h0] at hb0
            have hkq := hk4 hne
            have hbne : buf ≠ [] := by
              intro h0; rw [hk2, h0] at hne; simp at hne
            have hq0 := write_slots_q_pos_zero env q (qs - sp) sp a1 c arr qp buf (by omega)
              hbne hrst
            rw [hq0] at hst ⊢
            obtain ⟨h3, h4⟩ := ih a2 (write_slots env q (qs - sp) sp a1 c arr qp buf).c d2 nx 0 0
              (write_slots env q (qs - sp) sp a1 c arr qp buf).buf hwn hqs hq hst
            have hlen : (write_slots env q (qs - sp) sp a1 c arr qp buf).buf.length + k
                = buf.length := by
              rw [hk2]; simp; omega
            refine ⟨?_, ?_⟩
            · simp only [List.length_cons]
              simp only [Nat.zero_mul, Nat.zero_add] at h3
              rw [Nat.succ_mul]
              omega
            · intro j hj
              by_cases hjk : j < k
              · rw [chain_cell_head q qs _ _ _ (by omega)]
                exact hk5 j hjk
              · have := h4 (j - k) (by omega)
                simp only [Nat.zero_mul, Nat.zero_add] at this
                rw [show sp * q + qp + j = q * qs + (j - k) by omega,
                  chain_cell_tail q qs hq hqs, this, hk2, List.getElem?_drop]
                congr 2
                omega
      · rename_i st hne
        simp only at hst
        exact absurd hst (hne)

theorem write_slots_ok (env : Env) (hc : env.no_copy_fault) (ha : env.no_alloc_failure)
    (q : Nat) :
    ∀ (n i a c : Nat) (arr : List (Option Quantum)) (qp : Nat) (buf : List Byte),
      (write_slots env q n i a c arr qp buf).st = .done := by
  intro n
  induction n with
  | zero => intro i a c arr qp buf; simp [write_slots]
  | succ n ih =>
    intro i a c arr qp buf
    rw [write_slots]
    split
    · rfl
    · split
      · rename_i hal
        exact absurd hal (alloc_if_null_ok env ha _ _ _)
      · simp only [hc c, if_true]
        exact ih _ _ _ _ _ _

theorem write_loop_ok (env : Env) (hc : env.no_copy_fault) (ha : env.no_alloc_failure)
    (q qs : Nat) (hqs : 0 < qs) :
    ∀ (fuel a c : Nat) (dptr : scull_qset) (next : List scull_qset) (sp qp : Nat)
      (buf : List Byte), buf.length < fuel → sp < qs → qp < q →
      (write_loop env q qs fuel a c dptr next sp qp buf).st = .done := by
  intro fuel
  induction fuel with
  | zero => intro a c dptr next sp qp buf h; omega
  | succ fuel ih =>
    intro a c dptr next sp qp buf hf hsp hqp
    rw [write_loop]
    split
    · rename_i hal
      exact absurd hal (alloc_if_null_ok env ha _ _ _)
    · rename_i a1 arr hal
      have hst := write_slots_ok env hc ha q (qs - sp) sp a1 c arr qp buf
      simp only
      split
      · split
        · rename_i hln
          exact absurd hln (link_next_ok env ha _ _)
        · split
          · rfl
          · rename_i hne
            simp only
            apply ih
            · have := write_slots_progress env q _ _ _ _ _ _ _ (by omega) hqp
                (by
                  intro h
                  have hle := write_slots_buf_le env q (qs - sp) sp a1 c arr qp buf
                  rw [h] at hle
                  simp at hle
                  exact hne (by simp [h, hle])) hst
              omega
            · exact hqs
            · exact lt_of_le_of_lt (write_slots_q_pos_le _ _ _ _ _ _ _ _ _) hqp
      · rename_i st hne
        exact absurd hst (hne)

/-- The coordinates `scull_read` and `scull_write` compute from the cursor lie
inside the segment. -/
theorem coords_lt (q qs p : Nat) (h : q * qs ≠ 0) :
    p % (q * qs) / q < qs ∧ p % (q * qs) % q < q ∧ 0 < q ∧ 0 < qs := by
  have hq : 0 < q := Nat.pos_of_ne_zero (fun h0 => h (by simp [h0]))
  have hqs : 0 < qs := Nat.pos_of_ne_zero (fun h0 => h (by simp [h0]))
  refine ⟨Nat.div_lt_of_lt_mul (Nat.mod_lt _ (Nat.pos_of_ne_zero h)), Nat.mod_lt _ hq, hq, hqs⟩

/-- The cursor is the segment start plus the offset the coordinates stand for. -/
theorem coords_sum (q qs p : Nat) :
    p / (q * qs) * (q * qs) + (p % (q * qs) / q * q + p % (q * qs) % q) = p := by
  rw [Nat.div_add_mod' (p % (q * qs)) q, Nat.div_add_mod' p (q * qs)]

/-- The function `write_at` (started at the
coordinates of the byte offset `z` of the chain) returns whenever the segment
size is not 0. -/
theorem write_at_total (env : Env) (dev : scull_dev) (buf : List Byte) (p z : Nat)
    (h : dev.quantum * dev.qset ≠ 0) : ∃ w, write_at env dev buf p (z / (dev.quantum * dev.qset))
      (z % (dev.quantum * dev.qset) / dev.quantum)
      (z % (dev.quantum * dev.qset) % dev.quantum) = some w := by
  obtain ⟨h1, h2, h3, h4⟩ := coords_lt dev.quantum dev.qset z h
  simp only [write_at]
  split
  · exact ⟨_, rfl⟩
  · rename_i dptr next hf
    have hfuel := write_loop_fuel env dev.quantum dev.qset h4 (buf.length + 1)
      (scull_follow env 0 dev.data (z / (dev.quantum * dev.qset))).a 0 dptr next _ _ buf
      (by omega) h1 h2
    split
    · exact ⟨_, rfl⟩
    · exact ⟨_, rfl⟩
    · exact ⟨_, rfl⟩
    · rename_i hst
      exact absurd hst hfuel

/-- When nothing fails, `write_at` writes the whole buffer. -/
theorem write_at_ok (env : Env) (dev : scull_dev) (buf : List Byte) (p z : Nat)
    (hq : 0 < dev.quantum) (hqs : 0 < dev.qset)
    (ha : env.no_alloc_failure) (hc : env.no_copy_fault) :
    ∃ w, write_at env dev buf p (z / (dev.quantum * dev.qset))
      (z % (dev.quantum * dev.qset) / dev.quantum)
      (z % (dev.quantum * dev.qset) % dev.quantum) = some w ∧ w.retval = (buf.length : Int) ∧
      w.f_pos = p + buf.length ∧ w.dev.size = max dev.size (p + buf.length) ∧
      w.dev.quantum = dev.quantum ∧ w.dev.qset = dev.qset := by
  have h : dev.quantum * dev.qset ≠ 0 := Nat.mul_ne_zero (by omega) (by omega)
  obtain ⟨h1, h2, h3, h4⟩ := coords_lt dev.quantum dev.qset z h
  simp only [write_at]
  split
  · rename_i hf
    have := (scull_follow_spec env 0 dev.data (z / (dev.quantum * dev.qset))).choose_spec.2.2.2
      (Or.inl ha)
    exact absurd hf this
  · rename_i dptr next hf
    have hst := write_loop_ok env hc ha dev.quantum dev.qset h4 (buf.length + 1)
      (scull_follow env 0 dev.data (z / (dev.quantum * dev.qset))).a 0 dptr next _ _ buf
      (by omega) h1 h2
    rw [hst]
    refine ⟨_, rfl, rfl, rfl, ?_, rfl, rfl⟩
    simp only
    split
    · rw [Nat.max_eq_right (by omega)]
    · rw [Nat.max_eq_left (by omega)]

theorem chain_cell_append (q qs : Nat) (hq : 0 < q) (hqs : 0 < qs) (before chain : List scull_qset)
    (o : Nat) :
    chain_cell q qs (before ++ chain) (before.length * (q * qs) + o) = chain_cell q qs chain o := by
  induction before with
  | nil => simp
  | cons s before ih =>
    rw [List.cons_append, List.length_cons, Nat.succ_mul,
      show before.length * (q * qs) + q * qs + o = q * qs + (before.length * (q * qs) + o) by omega,
      chain_cell_tail q qs hq hqs, ih]

/-- What `write_at` does to a well-formed store: the geometry stays, the
chain stays well formed and does not shrink; a failed write changes neither
the size nor the cursor; a successful one stores every byte of the buffer at
its offset and leaves the chain one segment longer than the data needs. -/
theorem write_at_spec (env : Env) (dev : scull_dev) (buf : List Byte) (p z : Nat)
    (w : WriteResult) (h0 : dev.quantum * dev.qset ≠ 0)
    (hwf : wf_chain dev.quantum dev.qset dev.data)
    (hw : write_at env dev buf p (z / (dev.quantum * dev.qset))
      (z % (dev.quantum * dev.qset) / dev.quantum)
      (z % (dev.quantum * dev.qset) % dev.quantum) = some w) :
    w.dev.quantum = dev.quantum ∧ w.dev.qset = dev.qset ∧
    wf_chain dev.quantum dev.qset w.dev.data ∧ dev.data.length ≤ w.dev.data.length ∧
    ((w.retval < 0 ∧ w.dev.size = dev.size ∧ w.f_pos = p) ∨
     (w.retval = (buf.length : Int) ∧ w.f_pos = p + buf.length ∧
      w.dev.size = max dev.size (p + buf.length) ∧
      z + buf.length + dev.quantum * dev.qset
        ≤ w.dev.data.length * (dev.quantum * dev.qset) ∧
      ∀ j, j < buf.length → byte_at w.dev (z + j) = (buf[j]?).map some)) := by
  obtain ⟨h1, h2, h3, h4⟩ := coords_lt dev.quantum dev.qset z h0
  obtain ⟨m, hm1, hm2, hm3, hm4⟩ := scull_follow_spec env 0 dev.data (z / (dev.quantum * dev.qset))
  have hwfc : wf_chain dev.quantum dev.qset
      (scull_follow env 0 dev.data (z / (dev.quantum * dev.qset))).chain := by
    rw [hm1, wf_chain_append]
    exact ⟨hwf, wf_chain_replicate_empty _ _ _⟩
  have hlenc : dev.data.length ≤
      (scull_follow env 0 dev.data (z / (dev.quantum * dev.qset))).chain.length := by
    rw [hm1]; simp
  simp only [write_at] at hw
  split at hw
  · simp only [Option.some.injEq] at hw
    subst hw
    refine ⟨rfl, rfl, hwfc, hlenc, Or.inl ⟨by simp [ENOMEM], rfl, rfl⟩⟩
  · rename_i dptr next hf
    obtain ⟨hb, -⟩ := hm3 _ hf
    simp only [Follow.chain, hf] at hwfc hlenc
    rw [wf_chain_append] at hwfc
    obtain ⟨hl1, hl2⟩ := write_loop_wf env dev.quantum dev.qset (buf.length + 1)
      (scull_follow env 0 dev.data (z / (dev.quantum * dev.qset))).a 0 dptr next
      (z % (dev.quantum * dev.qset) / dev.quantum) (z % (dev.quantum * dev.qset) % dev.quantum)
      buf hwfc.2 (by omega)
    have hwf2 := (wf_chain_append dev.quantum dev.qset _ _).mpr ⟨hwfc.1, hl1⟩
    have hlen2 : dev.data.length ≤ ((scull_follow env 0 dev.data
        (z / (dev.quantum * dev.qset))).before ++
        (write_loop env dev.quantum dev.qset (buf.length + 1)
          (scull_follow env 0 dev.data (z / (dev.quantum * dev.qset))).a 0 dptr next
          (z % (dev.quantum * dev.qset) / dev.quantum)
          (z % (dev.quantum * dev.qset) % dev.quantum) buf).dptr ::
        (write_loop env dev.quantum dev.qset (buf.length + 1)
          (scull_follow env 0 dev.data (z / (dev.quantum * dev.qset))).a 0 dptr next
          (z % (dev.quantum * dev.qset) / dev.quantum)
          (z % (dev.quantum * dev.qset) % dev.quantum) buf).next).length := by
      simp only [List.length_append, List.length_cons] at hlenc ⊢; omega
    split at hw
    · rename_i hst
      obtain ⟨hd1, hd2⟩ := write_loop_done env dev.quantum dev.qset h4 (buf.length + 1)
        (scull_follow env 0 dev.data (z / (dev.quantum * dev.qset))).a 0 dptr next
        (z % (dev.quantum * dev.qset) / dev.quantum) (z % (dev.quantum * dev.qset) % dev.quantum)
        buf hwfc.2 h1 h2 hst
      have hsum := coords_sum dev.quantum dev.qset z
      simp only [Option.some.injEq] at hw
      subst hw
      refine ⟨rfl, rfl, hwf2, hlen2, Or.inr ⟨rfl, rfl, ?_, ?_, ?_⟩⟩
      · simp only
        split
        · rw [Nat.max_eq_right (by omega)]
        · rw [Nat.max_eq_left (by omega)]
      · simp only [List.length_append, List.length_cons, hb]
        rw [Nat.add_mul]
        omega
      · intro j hj
        have e : z + j = (scull_follow env 0 dev.data (z / (dev.quantum * dev.qset))).before.length
            * (dev.quantum * dev.qset) + (z % (dev.quantum * dev.qset) / dev.quantum * dev.quantum
              + z % (dev.quantum * dev.qset) % dev.quantum + j) := by
          rw [hb]; omega
        simp only [byte_at]
        rw [e, chain_cell_append dev.quantum dev.qset h3 h4]
        exact hd2 j hj
    · simp only [Option.some.injEq] at hw
      subst hw
      exact ⟨rfl, rfl, hwf2, hlen2, Or.inl ⟨by simp [ENOMEM], rfl, rfl⟩⟩
    · simp only [Option.some.injEq] at hw
      subst hw
      exact ⟨rfl, rfl, hwf2, hlen2, Or.inl ⟨by simp [EFAULT], rfl, rfl⟩⟩
    · simp at hw

theorem read_slots_st (env : Env) (q : Nat) (arr : List (Option Quantum)) :
    ∀ (n i c qp count : Nat),
      ((read_slots env q arr n i c qp count).st = .done ∨
       (read_slots env q arr n i c qp count).st = .efault) ∧
      (env.no_copy_fault → (read_slots env q arr n i c qp count).st = .done) ∧
      (read_slots env q arr n i c qp count).count ≤ count := by
  intro n
  induction n with
  | zero => intro i c qp count; simp [read_slots]
  | succ n ih =>
    intro i c qp count
    rw [read_slots]
    split
    · simp
    · split
      · simp
      · split
        · obtain ⟨h1, h2, h3⟩ := ih (i + 1) (c + 1) 0 (count - chunk q qp count)
          exact ⟨h1, h2, by simp only; omega⟩
        · rename_i hc
          exact ⟨Or.inr rfl, fun h => absurd (h c) hc, le_refl _⟩

/-- The `for` loop of `scull_read`, when no copy faults: it copies the `k`
bytes stored from offset `i * q + qp` on, stopping at a `NULL` slot, at the
end of the array, or when `count` bytes are copied. -/
theorem read_slots_done (env : Env) (q qs : Nat) (arr : List (Option Quantum))
    (hwf : wf_arr q qs arr) :
    ∀ (n i c qp count : Nat), i + n = qs → qp < q → (0 < n ∨ qp = 0) →
      (read_slots env q arr n i c qp count).st = .done →
      ∃ k, k ≤ count ∧ (read_slots env q arr n i c qp count).count = count - k ∧
        (read_slots env q arr n i c qp count).out.length = k ∧
        k + qp ≤ n * q ∧
        (∀ j, j < k →
          arr_cell q arr (i * q + qp + j) = (read_slots env q arr n i c qp count).out[j]?) ∧
        ((read_slots env q arr n i c qp count).stop = true →
          k < count ∧ ∃ i1, i1 < i + n ∧ (i * q + qp + k) / q = i1 ∧ arr.getD i1 none = none) ∧
        ((read_slots env q arr n i c qp count).stop = false →
          k = count ∨
          (k + qp = n * q ∧ (read_slots env q arr n i c qp count).q_pos = 0)) := by
  intro n
  induction n with
  | zero =>
    intro i c qp count _ _ h0 _
    have : qp = 0 := by omega
    exact ⟨0, by simp, by simp [read_slots], by simp [read_slots], by simp [this], by simp,
      by simp [read_slots], by simp [read_slots, this]⟩
  | succ n ih =>
    intro i c qp count hin hqp _ hst
    rw [read_slots] at hst ⊢
    split at hst
    · rename_i hb
      rw [if_pos hb]
      exact ⟨0, by simp, by simp, by simp, by nlinarith, by simp, by simp, by simp [hb]⟩
    · rename_i hb
      rw [if_neg hb]
      split at hst
      · rename_i hnone
        refine ⟨0, by simp, by simp, by simp, by nlinarith, by simp, ?_, by simp⟩
        intro _
        refine ⟨by omega, i, by omega, ?_, hnone⟩
        rw [Nat.add_zero, Nat.add_comm, Nat.add_mul_div_right _ _ (by omega),
          Nat.div_eq_of_lt hqp]
        simp
      · rename_i blk hblk
        have hbl := wf_arr_getD q qs arr i blk hwf hblk
        have hch := chunk_le_room q qp count
        have hch2 := chunk_le q qp count
        have hmin := chunk_eq_min q qp count
        simp only at hst ⊢
        split at hst
        · rename_i hc
          rw [if_pos hc]
          simp only at hst ⊢
          obtain ⟨k, hk1, hk2, hk3, hk4, hk5, hk6, hk7⟩ :=
            ih (i + 1) (c + 1) 0 (count - chunk q qp count) (by omega) (by omega) (Or.inr rfl) hst
          have hcl : (List.take (chunk q qp count) (List.drop qp blk)).length = chunk q qp count := by
            simp; omega
          refine ⟨chunk q qp count + k, by omega, by omega, ?_, ?_, ?_, ?_, ?_⟩
          · simp only [List.length_append, hcl, hk3]
          · rw [Nat.succ_mul]; omega
          · intro j hj
            by_cases hjt : j < chunk q qp count
            · rw [Nat.add_assoc, arr_cell_slot q _ i (qp + j) _ (by omega) hblk,
                List.getElem?_append_left (by omega), List.getElem?_take_of_lt hjt,
                List.getElem?_drop]
            · have ht : chunk q qp count = q - qp := by omega
              rw [List.getElem?_append_right (by omega), hcl, ← hk5 (j - chunk q qp count) (by omega)]
              congr 1
              rw [Nat.succ_mul, ht]; omega
          · intro hs
            obtain ⟨h1, i1, h2, h3, h4⟩ := hk6 hs
            have ht : chunk q qp count = q - qp := by omega
            refine ⟨by omega, i1, by omega, ?_, h4⟩
            rw [← h3]
            congr 1
            rw [Nat.succ_mul, ht]; omega
          · intro hs
            rcases hk7 hs with h1 | ⟨h1, h2⟩
            · left; omega
            · by_cases hcz : count - chunk q qp count = k
              · left; omega
              · right
                have ht : chunk q qp count = q - qp := by omega
                exact ⟨by rw [Nat.succ_mul, ht]; omega, h2⟩
        · simp at hst

theorem chain_slot_head (qs : Nat) (arr : List (Option Quantum)) (rest : List scull_qset)
    (g : Nat) (hg : g < qs) :
    chain_slot qs (⟨some arr⟩ :: rest) g = arr.getD g none := by
  simp [chain_slot, Nat.div_eq_of_lt hg, Nat.mod_eq_of_lt hg]

theorem chain_slot_head_none (qs : Nat) (rest : List scull_qset) (g : Nat) (hg : g < qs) :
    chain_slot qs (⟨none⟩ :: rest) g = none := by
  simp [chain_slot, Nat.div_eq_of_lt hg]

theorem slot_index (q i r : Nat) (hr : r < q) : (i * q + r) / q = i := by
  rw [Nat.add_comm, Nat.add_mul_div_right _ _ (by omega), Nat.div_eq_of_lt hr]; simp

theorem read_loop_st (env : Env) (q qs : Nat) :
    ∀ (next : List scull_qset) (dptr : scull_qset) (sp c qp count : Nat),
      ((read_loop env q qs dptr next sp c qp count).st = .done ∨
       (read_loop env q qs dptr next sp c qp count).st = .efault) ∧
      (env.no_copy_fault → (read_loop env q qs dptr next sp c qp count).st = .done) ∧
      (read_loop env q qs dptr next sp c qp count).count ≤ count := by
  intro next
  induction next with
  | nil =>
    intro dptr sp c qp count
    rw [read_loop]
    split
    · simp
    · split
      · simp
      · rename_i _ arr harr _ blk hblk
        obtain ⟨h1, h2, h3⟩ := read_slots_st env q arr (qs - sp) sp c qp count
        simp only
        split
        · split
          · exact ⟨Or.inl rfl, fun _ => rfl, h3⟩
          · exact ⟨Or.inl rfl, fun _ => rfl, h3⟩
        · rename_i st hne
          refine ⟨?_, ?_, h3⟩
          · rcases h1 with h1 | h1
            · exact absurd h1 hne
            · exact Or.inr h1
          · intro h; exact absurd (h2 h) hne
  | cons d2 nx ih =>
    intro dptr sp c qp count
    rw [read_loop]
    split
    · simp
    · split
      · simp
      · rename_i _ arr harr _ blk hblk
        obtain ⟨h1, h2, h3⟩ := read_slots_st env q arr (qs - sp) sp c qp count
        simp only
        split
        · split
          · exact ⟨Or.inl rfl, fun _ => rfl, h3⟩
          · split
            · exact ⟨Or.inl rfl, fun _ => rfl, h3⟩
            · obtain ⟨h4, h5, h6⟩ := ih d2 0 (read_slots env q arr (qs - sp) sp c qp count).c
                (read_slots env q arr (qs - sp) sp c qp count).q_pos
                (read_slots env q arr (qs - sp) sp c qp count).count
              exact ⟨h4, h5, le_trans h6 h3⟩
        · rename_i st hne
          refine ⟨?_, ?_, h3⟩
          · rcases h1 with h1 | h1
            · exact absurd h1 hne
            · exact Or.inr h1
          · intro h; exact absurd (h2 h) hne

/-- The `do ... while` loop of `scull_read`, when no copy faults: it copies the
`k` bytes stored from offset `sp * q + qp` on, and stops before `count` bytes
only in front of an empty slot. -/
theorem read_loop_done (env : Env) (q qs : Nat) (hqs : 0 < qs) :
    ∀ (next : List scull_qset) (dptr : scull_qset) (sp c qp count : Nat),
      wf_chain q qs (dptr :: next) → sp < qs → qp < q →
      (read_loop env q qs dptr next sp c qp count).st = .done →
      ∃ k, k ≤ count ∧ (read_loop env q qs dptr next sp c qp count).count = count - k ∧
        (read_loop env q qs dptr next sp c qp count).out.length = k ∧
        (∀ j, j < k → chain_cell q qs (dptr :: next) (sp * q + qp + j)
          = (read_loop env q qs dptr next sp c qp count).out[j]?) ∧
        (k < count → chain_slot qs (dptr :: next) ((sp * q + qp + k) / q) = none) := by
  intro next
  induction next with
  | nil =>
    intro dptr sp c qp count hwf hsp hqp hst
    have hq : 0 < q := by omega
    obtain ⟨data⟩ := dptr
    rw [read_loop] at hst ⊢
    split at hst
    · rename_i hd
      simp only at hd
      subst hd
      refine ⟨0, by simp, by simp, by simp, by simp, fun _ => ?_⟩
      rw [Nat.add_zero, slot_index q sp qp hqp, chain_slot_head_none qs _ _ hsp]
    · rename_i _ arr hd
      simp only at hd
      subst hd
      have hwa : wf_arr q qs arr := ((wf_chain_cons q qs _ _).mp hwf).1 arr rfl
      split at hst
      · rename_i hnone
        refine ⟨0, by simp, by simp, by simp, by simp, fun _ => ?_⟩
        rw [Nat.add_zero, slot_index q sp qp hqp, chain_slot_head qs _ _ _ hsp, hnone]
      · rename_i _ blk hblk
        simp only at hst ⊢
        have hmul : (qs - sp) * q + sp * q = q * qs := by
          rw [← Nat.add_mul, Nat.mul_comm]; congr 1; omega
        split at hst
        · rename_i hrst
          obtain ⟨k, hk1, hk2, hk3, hk4, hk5, hk6, hk7⟩ := read_slots_done env q qs arr hwa
            (qs - sp) sp c qp count (by omega) hqp (Or.inl (by omega)) hrst
          have hhead : ∀ j, j < k → chain_cell q qs [⟨some arr⟩] (sp * q + qp + j)
              = (read_slots env q arr (qs - sp) sp c qp count).out[j]? := by
            intro j hj
            rw [chain_cell_head q qs _ _ _ (by omega)]
            exact hk5 j hj
          by_cases hstop : (read_slots env q arr (qs - sp) sp c qp count).stop = true
          · rw [if_pos hstop]
            obtain ⟨h1, i1, h2, h3, h4⟩ := hk6 hstop
            refine ⟨k, hk1, hk2, hk3, hhead, fun _ => ?_⟩
            rw [h3, chain_slot_head qs _ _ _ (by omega), h4]
          · rw [if_neg hstop]
            simp only [Bool.not_eq_true] at hstop
            refine ⟨k, hk1, hk2, hk3, hhead, fun hlt => ?_⟩
            rcases hk7 hstop with h1 | ⟨h1, _⟩
            · omega
            · rw [show sp * q + qp + k = qs * q + 0 by rw [Nat.mul_comm qs q]; omega,
                slot_index q qs 0 hq]
              simp [chain_slot, Nat.div_self hqs]
        · rename_i st hne
          simp only at hst
          exact absurd hst hne
  | cons d2 nx ih =>
    intro dptr sp c qp count hwf hsp hqp hst
    have hq : 0 < q := by omega
    obtain ⟨data⟩ := dptr
    rw [read_loop] at hst ⊢
    split at hst
    · rename_i hd
      simp only at hd
      subst hd
      refine ⟨0, by simp, by simp, by simp, by simp, fun _ => ?_⟩
      rw [Nat.add_zero, slot_index q sp qp hqp, chain_slot_head_none qs _ _ hsp]
    · rename_i _ arr hd
      simp only at hd
      subst hd
      have hwa : wf_arr q qs arr := ((wf_chain_cons q qs _ _).mp hwf).1 arr rfl
      have hwn : wf_chain q qs (d2 :: nx) := ((wf_chain_cons q qs _ _).mp hwf).2
      split at hst
      · rename_i hnone
        refine ⟨0, by simp, by simp, by simp, by simp, fun _ => ?_⟩
        rw [Nat.add_zero, slot_index q sp qp hqp, chain_slot_head qs _ _ _ hsp, hnone]
      · rename_i _ blk hblk
        simp only at hst ⊢
        have hmul : (qs - sp) * q + sp * q = q * qs := by
          rw [← Nat.add_mul, Nat.mul_comm]; congr 1; omega
        split at hst
        · rename_i hrst
          obtain ⟨k, hk1, hk2, hk3, hk4, hk5, hk6, hk7⟩ := read_slots_done env q qs arr hwa
            (qs - sp) sp c qp count (by omega) hqp (Or.inl (by omega)) hrst
          have hhead : ∀ j, j < k → chain_cell q qs (⟨some arr⟩ :: d2 :: nx) (sp * q + qp + j)
              = (read_slots env q arr (qs - sp) sp c qp count).out[j]? := by
            intro j hj
            rw [chain_cell_head q qs _ _ _ (by omega)]
            exact hk5 j hj
          by_cases hstop : (read_slots env q arr (qs - sp) sp c qp count).stop = true
          · rw [if_pos hstop]
            obtain ⟨h1, i1, h2, h3, h4⟩ := hk6 hstop
            refine ⟨k, hk1, hk2, hk3, hhead, fun _ => ?_⟩
            rw [h3, chain_slot_head qs _ _ _ (by omega), h4]
          · rw [if_neg hstop] at hst ⊢
            simp only [Bool.not_eq_true] at hstop
            by_cases hcz : (read_slots env q arr (qs - sp) sp c qp count).count = 0
            · rw [if_pos hcz]
              exact ⟨k, hk1, hk2, hk3, hhead, fun hlt => by omega⟩
            · rw [if_neg hcz] at hst ⊢
              simp only at hst ⊢
              rcases hk7 hstop with h1 | ⟨h1, h2⟩
              · omega
              · rw [h2] at hst ⊢
                obtain ⟨k2, hl1, hl2, hl3, hl4, hl5⟩ := ih d2 0
                  (read_slots env q arr (qs - sp) sp c qp count).c 0
                  (read_slots env q arr (qs - sp) sp c qp count).count hwn hqs hq hst
                refine ⟨k + k2, by omega, by omega, by simp [hk3, hl3], ?_, ?_⟩
                · intro j hj
                  by_cases hjk : j < k
                  · rw [List.getElem?_append_left (by omega)]
                    exact hhead j hjk
                  · have := hl4 (j - k) (by omega)
                    simp only [Nat.zero_mul, Nat.zero_add] at this
                    rw [List.getElem?_append_right (by omega), hk3, ← this,
                      show sp * q + qp + j = q * qs + (j - k) by omega,
                      chain_cell_tail q qs hq hqs]
                · intro hlt
                  have := hl5 (by omega)
                  simp only [Nat.zero_mul, Nat.zero_add] at this
                  rw [show sp * q + qp + (k + k2) = q * qs + k2 by omega, Nat.mul_add_div hq,
                    chain_slot_tail qs hqs]
                  exact this
        · rename_i st hne
          simp only at hst
          exact absurd hst hne

theorem chain_slot_append (qs : Nat) (hqs : 0 < qs) (before chain : List scull_qset) (g : Nat) :
    chain_slot qs (before ++ chain) (before.length * qs + g) = chain_slot qs chain g := by
  induction before with
  | nil => simp
  | cons s before ih =>
    rw [List.cons_append, List.length_cons, Nat.succ_mul,
      show before.length * qs + qs + g = qs + (before.length * qs + g) by omega,
      chain_slot_tail qs hqs, ih]

/-- At or past the end of the data `scull_read` returns 0 and touches nothing. -/
theorem scull_read_eof (env : Env) (dev : scull_dev) (count p : Nat) (hp : dev.size ≤ p) :
    scull_read env dev count p = some ⟨0, p, dev, []⟩ := by
  simp [scull_read, hp]

theorem clamp_le (dev : scull_dev) (count p : Nat) (hp : p < dev.size) :
    clamp dev count p ≤ count ∧ p + clamp dev count p ≤ dev.size := by
  unfold clamp; split <;> omega

/-- In front of the end of the data `read_at` returns, on any store whose
segment size is not 0: a fault, or a count within the clamped length, the
cursor advanced by it.  Only the chain can change, by what `scull_follow` adds. -/
theorem read_at_general (env : Env) (dev : scull_dev) (count p z : Nat) :
    ∃ r, read_at env dev count p (z / (dev.quantum * dev.qset))
        (z % (dev.quantum * dev.qset) / dev.quantum) (z % (dev.quantum * dev.qset) % dev.quantum)
        = some r ∧
      r.dev = { dev with data :=
        (scull_follow env 0 dev.data (z / (dev.quantum * dev.qset))).chain } ∧
      ((r.retval = -EFAULT ∧ r.f_pos = p) ∨
        ∃ k, k ≤ count ∧ r.retval = (k : Int) ∧ r.f_pos = p + k) ∧
      (env.no_copy_fault → r.retval ≠ -EFAULT) := by
  simp only [read_at]
  split
  · exact ⟨_, rfl, rfl, Or.inr ⟨0, by simp, rfl, rfl⟩, fun _ => by simp [EFAULT]⟩
  · rename_i dptr next hf
    obtain ⟨h1, h2, h3⟩ := read_loop_st env dev.quantum dev.qset next dptr
      (z % (dev.quantum * dev.qset) / dev.quantum) 0 (z % (dev.quantum * dev.qset) % dev.quantum)
      count
    split
    · refine ⟨_, rfl, rfl, Or.inr ⟨_, ?_, rfl, rfl⟩, fun _ => ?_⟩
      · omega
      · simp only [EFAULT]; omega
    · rename_i hst
      exact ⟨_, rfl, rfl, Or.inl ⟨rfl, rfl⟩, fun h => by rw [h2 h] at hst; simp at hst⟩
    · rename_i hne1 hne2
      rcases h1 with h1 | h1
      · exact absurd h1 hne1
      · exact absurd h1 hne2

/-- On a well-formed store whose chain reaches the cursor, `read_at` leaves
the store as it is and, unless a copy faults, returns the bytes stored from
the cursor on, up to the clamped length or the first empty slot. -/
theorem read_at_spec (env : Env) (dev : scull_dev) (count p z : Nat)
    (h0 : dev.quantum * dev.qset ≠ 0) (hwf : wf_chain dev.quantum dev.qset dev.data)
    (hlen : z / (dev.quantum * dev.qset) < dev.data.length) :
    ∃ r, read_at env dev count p (z / (dev.quantum * dev.qset))
        (z % (dev.quantum * dev.qset) / dev.quantum) (z % (dev.quantum * dev.qset) % dev.quantum)
        = some r ∧ r.dev = dev ∧
      ((r.retval = -EFAULT ∧ r.f_pos = p) ∨
        ∃ k, k ≤ count ∧ r.retval = (k : Int) ∧ r.f_pos = p + k ∧
          r.out.length = k ∧
          (∀ j, j < k → byte_at dev (z + j) = r.out[j]?) ∧
          (k < count → slot_at dev ((z + k) / dev.quantum) = none)) ∧
      (env.no_copy_fault → r.retval ≠ -EFAULT) := by
  obtain ⟨c1, c2, c3, c4⟩ := coords_lt dev.quantum dev.qset z h0
  have hsum := coords_sum dev.quantum dev.qset z
  obtain ⟨m, hm1, hm2, hm3, hm4⟩ := scull_follow_spec env 0 dev.data (z / (dev.quantum * dev.qset))
  have hm0 : m = 0 := by omega
  rw [hm0] at hm1
  simp only [List.replicate_zero, List.append_nil] at hm1
  have hfound := hm4 (Or.inr hlen)
  simp only [read_at]
  split
  · rename_i hf
    exact absurd hf hfound
  · rename_i dptr next hf
    obtain ⟨hb, -⟩ := hm3 _ hf
    have hchain : (scull_follow env 0 dev.data (z / (dev.quantum * dev.qset))).before
        ++ dptr :: next = dev.data := by
      have hc : (scull_follow env 0 dev.data (z / (dev.quantum * dev.qset))).chain
          = (scull_follow env 0 dev.data (z / (dev.quantum * dev.qset))).before
            ++ dptr :: next := by
        simp [Follow.chain, hf]
      exact hc.symm.trans hm1
    have hwf2 : wf_chain dev.quantum dev.qset (dptr :: next) := by
      rw [← hchain, wf_chain_append] at hwf
      exact hwf.2
    obtain ⟨h1, h2, h3⟩ := read_loop_st env dev.quantum dev.qset next dptr
      (z % (dev.quantum * dev.qset) / dev.quantum) 0 (z % (dev.quantum * dev.qset) % dev.quantum)
      count
    have hdev : ({ dev with data :=
        (scull_follow env 0 dev.data (z / (dev.quantum * dev.qset))).chain } : scull_dev) = dev := by
      rw [hm1]
    split
    · rename_i hst
      obtain ⟨k, hk1, hk2, hk3, hk4, hk5⟩ := read_loop_done env dev.quantum dev.qset c4 next dptr
        (z % (dev.quantum * dev.qset) / dev.quantum) 0 (z % (dev.quantum * dev.qset) % dev.quantum)
        count hwf2 c1 c2 hst
      refine ⟨_, rfl, hdev, Or.inr ⟨k, hk1, ?_, ?_, hk3, ?_, ?_⟩, fun _ => ?_⟩
      · simp only [hk2]; congr 1; omega
      · simp only [hk2]; omega
      · intro j hj
        have e : z + j = (scull_follow env 0 dev.data (z / (dev.quantum * dev.qset))).before.length
            * (dev.quantum * dev.qset) + (z % (dev.quantum * dev.qset) / dev.quantum * dev.quantum
              + z % (dev.quantum * dev.qset) % dev.quantum + j) := by
          rw [hb]; omega
        simp only [byte_at]
        rw [← hchain, e, chain_cell_append dev.quantum dev.qset c3 c4]
        exact hk4 j hj
      · intro hlt
        have e : (z + k) / dev.quantum
            = (scull_follow env 0 dev.data (z / (dev.quantum * dev.qset))).before.length
              * dev.qset + (z % (dev.quantum * dev.qset) / dev.quantum * dev.quantum
                + z % (dev.quantum * dev.qset) % dev.quantum + k) / dev.quantum := by
          rw [hb, ← Nat.mul_add_div c3, ← Nat.mul_assoc, Nat.mul_comm dev.quantum,
            Nat.mul_assoc]
          congr 1
          omega
        simp only [slot_at]
        rw [← hchain, e, chain_slot_append dev.qset c4]
        exact hk5 hlt
      · simp only [EFAULT]; omega
    · rename_i hst
      exact ⟨_, rfl, hdev, Or.inl ⟨rfl, rfl⟩, fun h => by rw [h2 h] at hst; simp at hst⟩
    · rename_i hne1 hne2
      rcases h1 with h1 | h1
      · exact absurd h1 hne1
      · exact absurd h1 hne2

theorem byte_at_slot (dev : scull_dev) (o : Nat) (h : byte_at dev o ≠ none) :
    slot_at dev (o / dev.quantum) ≠ none := by
  intro h2
  apply h
  simp only [byte_at, chain_cell]
  simp only [slot_at] at h2
  rw [h2]

theorem clamp_eq_min (dev : scull_dev) (count p : Nat) (hp : p < dev.size) :
    clamp dev count p = min count (dev.size - p) := by
  unfold clamp; split <;> omega

theorem write_slots_nil (env : Env) (q n i a c : Nat) (arr : List (Option Quantum)) (qp : Nat)
    (buf : List Byte) (hb : buf.length = 0) :
    write_slots env q (n + 1) i a c arr qp buf = ⟨.done, arr, a, c, qp, buf⟩ := by
  rw [write_slots, if_pos hb]

theorem chain_slot_empty (qs : Nat) (m g : Nat) :
    chain_slot qs (List.replicate m empty_qset) g = none := by
  simp only [chain_slot]
  cases h : (List.replicate m empty_qset)[g / qs]? with
  | none => rfl
  | some s =>
    have := List.getElem?_mem h
    rw [List.mem_replicate] at this
    simp [this.2, empty_qset]

theorem chain_slot_append_left (qs : Nat) (before rest : List scull_qset) (g : Nat)
    (hg : g < before.length * qs) :
    chain_slot qs (before ++ rest) g = chain_slot qs before g := by
  have : g / qs < before.length := Nat.div_lt_of_lt_mul (by rw [Nat.mul_comm]; exact hg)
  simp only [chain_slot, List.getElem?_append_left this]

/-- Empty quantum sets at the end of the chain hold no block. -/
theorem chain_slot_append_empty (qs : Nat) (hqs : 0 < qs) (chain : List scull_qset) (m g : Nat) :
    chain_slot qs (chain ++ List.replicate m empty_qset) g = chain_slot qs chain g := by
  by_cases hg : g < chain.length * qs
  · exact chain_slot_append_left qs chain _ g hg
  · have e : g = chain.length * qs + (g - chain.length * qs) := by omega
    have h2 : chain.length ≤ g / qs := (Nat.le_div_iff_mul_le hqs).mpr (by omega)
    rw [e, chain_slot_append qs hqs, chain_slot_empty, ← e]
    simp only [chain_slot, List.getElem?_eq_none h2]

/-- On any store, a `write_at` that returns either failed, leaving size and
cursor, or wrote the whole buffer; it never changes quantum or qset. -/
theorem write_at_size (env : Env) (dev : scull_dev) (buf : List Byte) (p n sp qp : Nat)
    (w : WriteResult) (hw : write_at env dev buf p n sp qp = some w) :
    w.dev.quantum = dev.quantum ∧ w.dev.qset = dev.qset ∧
    (((w.retval = -ENOMEM ∨ w.retval = -EFAULT) ∧ w.dev.size = dev.size ∧ w.f_pos = p) ∨
     (w.retval = (buf.length : Int) ∧ w.f_pos = p + buf.length ∧
      w.dev.size = max dev.size (p + buf.length))) := by
  simp only [write_at] at hw
  split at hw
  · simp only [Option.some.injEq] at hw
    subst hw
    exact ⟨rfl, rfl, Or.inl ⟨Or.inl rfl, rfl, rfl⟩⟩
  · split at hw
    · simp only [Option.some.injEq] at hw
      subst hw
      refine ⟨rfl, rfl, Or.inr ⟨rfl, rfl, ?_⟩⟩
      simp only
      split
      · rw [Nat.max_eq_right (by omega)]
      · rw [Nat.max_eq_left (by omega)]
    · simp only [Option.some.injEq] at hw
      subst hw
      exact ⟨rfl, rfl, Or.inl ⟨Or.inl rfl, rfl, rfl⟩⟩
    · simp only [Option.some.injEq] at hw
      subst hw
      exact ⟨rfl, rfl, Or.inl ⟨Or.inr rfl, rfl, rfl⟩⟩
    · simp at hw

/-- Whether `scull_open` trims: write-only access without the append flag. -/
theorem scull_open_dev (P : Params) (dev : scull_dev) (filp : file) :
    ((filp.f_flags &&& O_ACCMODE) = O_WRONLY ∧ (filp.f_flags &&& O_APPEND) = 0 →
      (scull_open P dev filp).dev = (scull_trim P dev).2) ∧
    (¬ ((filp.f_flags &&& O_ACCMODE) = O_WRONLY ∧ (filp.f_flags &&& O_APPEND) = 0) →
      (scull_open P dev filp).dev = dev) := by
  constructor
  · intro h
    simp only [scull_open, h, and_self, if_true]
  · intro h
    simp only [scull_open, h, if_false]

theorem empty_write_dev_slots (g : Nat) : slot_at empty_write_dev g = none := by
  by_cases hg : g < 6
  · interval_cases g <;> rfl
  · have h : 3 ≤ g / 2 := by omega
    simp only [slot_at, chain_slot, empty_write_dev]
    rw [List.getElem?_eq_none (by simpa using h)]

/-- Without a copy fault a `scull_write` never returns `-EFAULT`. -/
theorem write_slots_no_fault (env : Env) (hc : env.no_copy_fault) (q : Nat) :
    ∀ (n i a c : Nat) (arr : List (Option Quantum)) (qp : Nat) (buf : List Byte),
      (write_slots env q n i a c arr qp buf).st ≠ .efault := by
  intro n
  induction n with
  | zero => intro i a c arr qp buf; simp [write_slots]
  | succ n ih =>
    intro i a c arr qp buf
    rw [write_slots]
    split
    · simp
    · split
      · simp
      · simp only [hc c, if_true]
        exact ih _ _ _ _ _ _

theorem write_loop_no_fault (env : Env) (hc : env.no_copy_fault) (q qs : Nat) :
    ∀ (fuel a c : Nat) (dptr : scull_qset) (next : List scull_qset) (sp qp : Nat)
      (buf : List Byte), (write_loop env q qs fuel a c dptr next sp qp buf).st ≠ .efault := by
  intro fuel
  induction fuel with
  | zero => intro a c dptr next sp qp buf; simp [write_loop]
  | succ fuel ih =>
    intro a c dptr next sp qp buf
    rw [write_loop]
    split
    · simp
    · rename_i a1 arr hal
      simp only
      split
      · split
        · simp
        · split
          · simp
          · exact ih _ _ _ _ _ _ _
      · rename_i st hne
        intro h
        simp only at h
        exact write_slots_no_fault env hc q _ _ _ _ _ _ _ h

theorem write_at_no_fault (env : Env) (hc : env.no_copy_fault) (dev : scull_dev)
    (buf : List Byte) (p n sp qp : Nat) (w : WriteResult)
    (hw : write_at env dev buf p n sp qp = some w) : w.retval ≠ -EFAULT := by
  simp only [write_at] at hw
  split at hw
  · simp only [Option.some.injEq] at hw
    subst hw
    simp [ENOMEM, EFAULT]
  · rename_i dptr next hf
    split at hw
    · simp only [Option.some.injEq] at hw
      subst hw
      simp only [EFAULT]
      omega
    · simp only [Option.some.injEq] at hw
      subst hw
      simp [ENOMEM, EFAULT]
    · rename_i hst
      exact absurd hst (write_loop_no_fault env hc _ _ _ _ _ _ _ _ _ _)
    · simp at hw

theorem chain_cell_append_empty (q qs : Nat) (hqs : 0 < qs) (chain : List scull_qset)
    (m o : Nat) :
    chain_cell q qs (chain ++ List.replicate m empty_qset) o = chain_cell q qs chain o := by
  simp only [chain_cell, chain_slot_append_empty qs hqs]

theorem to_int_of_lt (x : Int) (h0 : -2147483648 ≤ x) (h1 : x < 2147483648) : to_int x = x := by
  unfold to_int; omega

theorem to_int_range (x : Int) : -2147483648 ≤ to_int x ∧ to_int x < 2147483648 := by
  unfold to_int; omega

theorem to_int_natAbs_le (x : Nat) : (to_int (x : Int)).natAbs ≤ x := by
  unfold to_int; omega

theorem to_int_nat (n : Nat) (h : n < 2147483648) : to_int (n : Int) = (n : Int) :=
  to_int_of_lt _ (by omega) (by omega)

/-- The C remainder of a cursor by an `int`. -/
theorem tmod_nat (p : Nat) (I : Int) : Int.tmod (p : Int) I = ((p % I.natAbs : Nat) : Int) := by
  cases I with
  | ofNat k => rfl
  | negSucc k => rfl

/-- The C quotient of a cursor by an `int`. -/
theorem tdiv_nat (p : Nat) (I : Int) :
    Int.tdiv (p : Int) I
      = if 0 ≤ I then ((p / I.natAbs : Nat) : Int) else -((p / I.natAbs : Nat) : Int) := by
  cases I with
  | ofNat k => simp [Int.tdiv]
  | negSucc k =>
    rw [if_neg (Int.negSucc_not_nonneg k).mp]
    rfl

/-- The number of links `scull_follow` walks for the cursor `p`: the quotient
modulo `2^32`, counted down from `2^32` when `itemsize` is negative. -/
theorem while_count_item (p : Nat) (I : Int) :
    while_count (to_int (Int.tdiv (p : Int) I))
      = if 0 ≤ I then p / I.natAbs % 4294967296
        else (4294967296 - p / I.natAbs % 4294967296) % 4294967296 := by
  simp only [while_count, tdiv_nat]
  generalize p / I.natAbs = x
  split
  · unfold to_int; omega
  · unfold to_int; omega

theorem itemsize_cast (q qs : Nat) : itemsize q qs = to_int ((q * qs : Nat) : Int) := by
  simp [itemsize]

/-- An `itemsize` other than 0 comes from a quantum and a qset other than 0;
its absolute value is at most `2^31` and at most their product. -/
theorem itemsize_abs (q qs : Nat) (h : itemsize q qs ≠ 0) :
    0 < (itemsize q qs).natAbs ∧ (itemsize q qs).natAbs ≤ 2147483648 ∧
    (itemsize q qs).natAbs ≤ q * qs ∧ q * qs ≠ 0 ∧ 0 < q ∧ 0 < qs := by
  have h1 := to_int_range ((q * qs : Nat) : Int)
  have h2 := to_int_natAbs_le (q * qs)
  rw [← itemsize_cast] at h1 h2
  have h3 : 0 < (itemsize q qs).natAbs := by omega
  have h4 : q * qs ≠ 0 := by omega
  refine ⟨h3, by omega, h2, h4, ?_, ?_⟩
  · exact Nat.pos_of_ne_zero (fun h0 => h4 (by simp [h0]))
  · exact Nat.pos_of_ne_zero (fun h0 => h4 (by simp [h0]))

/-- When the product of quantum and qset fits an `int`, `itemsize` is that product. -/
theorem itemsize_fit (q qs : Nat) (h : q * qs ≤ INT_MAX) : itemsize q qs = ((q * qs : Nat) : Int) := by
  rw [itemsize_cast]
  simp only [INT_MAX] at h
  exact to_int_nat _ (by omega)

/-- The coordinates `scull_read` and `scull_write` compute, for an `itemsize`
other than 0: with `A` the absolute value of `itemsize`, `s_pos` and `q_pos`
are those of `f_pos % A`. -/
theorem coords_spec (q qs p : Nat) (h : itemsize q qs ≠ 0) :
    (to_int (Int.tdiv (to_int (Int.tmod (p : Int) (itemsize q qs))) (q : Int))).toNat
      = p % (itemsize q qs).natAbs / q ∧
    (to_int (Int.tmod (to_int (Int.tmod (p : Int) (itemsize q qs))) (q : Int))).toNat
      = p % (itemsize q qs).natAbs % q := by
  obtain ⟨hA0, hA1, hA2, h0, hq, hqs⟩ := itemsize_abs q qs h
  have hr : p % (itemsize q qs).natAbs < (itemsize q qs).natAbs := Nat.mod_lt _ hA0
  have hrest : to_int (Int.tmod (p : Int) (itemsize q qs))
      = ((p % (itemsize q qs).natAbs : Nat) : Int) := by
    rw [tmod_nat]
    exact to_int_nat _ (by omega)
  have hs : p % (itemsize q qs).natAbs / q ≤ p % (itemsize q qs).natAbs := Nat.div_le_self _ _
  have hqp : p % (itemsize q qs).natAbs % q ≤ p % (itemsize q qs).natAbs := Nat.mod_le _ _
  constructor
  · rw [hrest, show Int.tdiv ((p % (itemsize q qs).natAbs : Nat) : Int) (q : Int)
      = ((p % (itemsize q qs).natAbs / q : Nat) : Int) from rfl,
      to_int_nat _ (by omega)]
    exact Int.toNat_ofNat _
  · rw [hrest, show Int.tmod ((p % (itemsize q qs).natAbs : Nat) : Int) (q : Int)
      = ((p % (itemsize q qs).natAbs % q : Nat) : Int) from rfl,
      to_int_nat _ (by omega)]
    exact Int.toNat_ofNat _

/-- The byte offset of the chain at which the operations start: the segment
index is the number of links `scull_follow` walks, and the offset in the
segment is `f_pos % A`, with `A` the absolute value of `itemsize`. -/
theorem chain_offset_spec (q qs p : Nat) (h : itemsize q qs ≠ 0) :
    chain_offset q qs p / (q * qs)
      = while_count (to_int (Int.tdiv (p : Int) (itemsize q qs))) ∧
    chain_offset q qs p % (q * qs) / q
      = (to_int (Int.tdiv (to_int (Int.tmod (p : Int) (itemsize q qs))) (q : Int))).toNat ∧
    chain_offset q qs p % (q * qs) % q
      = (to_int (Int.tmod (to_int (Int.tmod (p : Int) (itemsize q qs))) (q : Int))).toNat ∧
    chain_offset q qs p
      = while_count (to_int (Int.tdiv (p : Int) (itemsize q qs))) * (q * qs)
        + p % (itemsize q qs).natAbs := by
  obtain ⟨hA0, hA1, hA2, h0, hq, hqs⟩ := itemsize_abs q qs h
  obtain ⟨hs, hqp⟩ := coords_spec q qs p h
  have hr : p % (itemsize q qs).natAbs < q * qs :=
    lt_of_lt_of_le (Nat.mod_lt _ hA0) hA2
  have he : chain_offset q qs p
      = while_count (to_int (Int.tdiv (p : Int) (itemsize q qs))) * (q * qs)
        + p % (itemsize q qs).natAbs := by
    rw [chain_offset]
    show while_count (to_int (Int.tdiv (p : Int) (itemsize q qs))) * (q * qs)
      + ((to_int (Int.tdiv (to_int (Int.tmod (p : Int) (itemsize q qs))) (q : Int))).toNat * q
        + (to_int (Int.tmod (to_int (Int.tmod (p : Int) (itemsize q qs))) (q : Int))).toNat) = _
    rw [hs, hqp, Nat.div_add_mod']
  have hd : chain_offset q qs p / (q * qs)
      = while_count (to_int (Int.tdiv (p : Int) (itemsize q qs))) := by
    rw [he, Nat.add_comm, Nat.add_mul_div_right _ _ (Nat.pos_of_ne_zero h0),
      Nat.div_eq_of_lt hr, Nat.zero_add]
  have hm : chain_offset q qs p % (q * qs) = p % (itemsize q qs).natAbs := by
    rw [he, Nat.add_comm, Nat.add_mul_mod_self_right, Nat.mod_eq_of_lt hr]
  exact ⟨hd, by rw [hm, hs], by rw [hm, hqp], he⟩

/-- When the product of quantum and qset fits an `int`, the operations start
at the cursor with its segment index taken modulo `2^32`: at the cursor itself
when the segment index is less than `2^32`. -/
theorem chain_offset_fit (q qs p : Nat) (h0 : q * qs ≠ 0) (h1 : q * qs ≤ INT_MAX) :
    itemsize q qs ≠ 0 ∧
    chain_offset q qs p = p / (q * qs) % 4294967296 * (q * qs) + p % (q * qs) ∧
    (p / (q * qs) < 4294967296 → chain_offset q qs p = p) := by
  have hI := itemsize_fit q qs h1
  have hne : itemsize q qs ≠ 0 := by rw [hI]; exact_mod_cast h0
  have hA : (itemsize q qs).natAbs = q * qs := by rw [hI]; rfl
  obtain ⟨-, -, -, he⟩ := chain_offset_spec q qs p hne
  have hw := while_count_item p (itemsize q qs)
  rw [if_pos (by rw [hI]; exact Int.ofNat_nonneg _), hA] at hw
  rw [hA, hw] at he
  refine ⟨hne, he, ?_⟩
  intro hlt
  rw [he, Nat.mod_eq_of_lt hlt, Nat.div_add_mod']

/-- The function scull_write divides by zero exactly when `itemsize` is 0. -/
theorem scull_write_none (env : Env) (dev : scull_dev) (buf : List Byte) (p : Nat)
    (h : itemsize dev.quantum dev.qset = 0) : scull_write env dev buf p = none := by
  rw [scull_write]
  exact if_pos h

/-- The function scull_write is `write_at` at the coordinates of the chain
offset of the cursor. -/
theorem scull_write_eq (env : Env) (dev : scull_dev) (buf : List Byte) (p : Nat)
    (h : itemsize dev.quantum dev.qset ≠ 0) :
    scull_write env dev buf p
      = write_at env dev buf p (chain_offset dev.quantum dev.qset p / (dev.quantum * dev.qset))
          (chain_offset dev.quantum dev.qset p % (dev.quantum * dev.qset) / dev.quantum)
          (chain_offset dev.quantum dev.qset p % (dev.quantum * dev.qset) % dev.quantum) := by
  obtain ⟨h1, h2, h3, -⟩ := chain_offset_spec dev.quantum dev.qset p h
  rw [scull_write, h1, h2, h3]
  exact if_neg h

/-- A write that returns was made with an `itemsize` other than 0. -/
theorem scull_write_some (env : Env) (dev : scull_dev) (buf : List Byte) (p : Nat)
    (w : WriteResult) (hw : scull_write env dev buf p = some w) :
    itemsize dev.quantum dev.qset ≠ 0 := by
  intro h
  rw [scull_write_none env dev buf p h] at hw
  exact Option.noConfusion hw

/-- In front of the end of the data `scull_read` divides by zero exactly when
`itemsize` is 0. -/
theorem scull_read_none (env : Env) (dev : scull_dev) (count p : Nat) (hp : p < dev.size)
    (h : itemsize dev.quantum dev.qset = 0) : scull_read env dev count p = none := by
  rw [scull_read]
  show (if p ≥ dev.size then _ else if itemsize dev.quantum dev.qset = 0 then none else _) = none
  rw [if_neg (Nat.not_le.mpr hp), if_pos h]

/-- In front of the end of the data `scull_read` is `read_at` at the
coordinates of the chain offset of the cursor, with the count clamped. -/
theorem scull_read_eq (env : Env) (dev : scull_dev) (count p : Nat) (hp : p < dev.size)
    (h : itemsize dev.quantum dev.qset ≠ 0) :
    scull_read env dev count p
      = read_at env dev (clamp dev count p) p
          (chain_offset dev.quantum dev.qset p / (dev.quantum * dev.qset))
          (chain_offset dev.quantum dev.qset p % (dev.quantum * dev.qset) / dev.quantum)
          (chain_offset dev.quantum dev.qset p % (dev.quantum * dev.qset) % dev.quantum) := by
  obtain ⟨h1, h2, h3, -⟩ := chain_offset_spec dev.quantum dev.qset p h
  rw [scull_read, h1, h2, h3]
  show (if p ≥ dev.size then _ else if itemsize dev.quantum dev.qset = 0 then none else _) = _
  rw [if_neg (Nat.not_le.mpr hp), if_neg h]
  rfl

/-- On any store, a `scull_write` that returns either failed, leaving size and
cursor, or wrote the whole buffer; it never changes quantum or qset. -/
theorem scull_write_size (env : Env) (dev : scull_dev) (buf : List Byte) (p : Nat)
    (w : WriteResult) (hw : scull_write env dev buf p = some w) :
    w.dev.quantum = dev.quantum ∧ w.dev.qset = dev.qset ∧
    (((w.retval = -ENOMEM ∨ w.retval = -EFAULT) ∧ w.dev.size = dev.size ∧ w.f_pos = p) ∨
     (w.retval = (buf.length : Int) ∧ w.f_pos = p + buf.length ∧
      w.dev.size = max dev.size (p + buf.length))) := by
  rw [scull_write_eq env dev buf p (scull_write_some env dev buf p w hw)] at hw
  exact write_at_size env dev buf p _ _ _ w hw

/-- Without a copy fault a `scull_write` never returns `-EFAULT`. -/
theorem scull_write_no_fault (env : Env) (hc : env.no_copy_fault) (dev : scull_dev)
    (buf : List Byte) (p : Nat) (w : WriteResult) (hw : scull_write env dev buf p = some w) :
    w.retval ≠ -EFAULT := by
  rw [scull_write_eq env dev buf p (scull_write_some env dev buf p w hw)] at hw
  exact write_at_no_fault env hc dev buf p _ _ _ w hw

/-- The function scull_write returns whenever `itemsize` is not 0. -/
theorem scull_write_total (env : Env) (dev : scull_dev) (buf : List Byte) (p : Nat)
    (h : itemsize dev.quantum dev.qset ≠ 0) : ∃ w, scull_write env dev buf p = some w := by
  rw [scull_write_eq env dev buf p h]
  exact write_at_total env dev buf p _ (itemsize_abs _ _ h).2.2.2.1

/-- When nothing fails and `itemsize` is not 0, `scull_write` writes the whole
buffer. -/
theorem scull_write_ok (env : Env) (dev : scull_dev) (buf : List Byte) (p : Nat)
    (h : itemsize dev.quantum dev.qset ≠ 0)
    (ha : env.no_alloc_failure) (hc : env.no_copy_fault) :
    ∃ w, scull_write env dev buf p = some w ∧ w.retval = (buf.length : Int) ∧
      w.f_pos = p + buf.length ∧ w.dev.size = max dev.size (p + buf.length) ∧
      w.dev.quantum = dev.quantum ∧ w.dev.qset = dev.qset := by
  rw [scull_write_eq env dev buf p h]
  obtain ⟨-, -, -, -, hq, hqs⟩ := itemsize_abs _ _ h
  exact write_at_ok env dev buf p _ hq hqs ha hc

/-- What `scull_write` does to a well-formed store, in terms of the chain
offset `z` at which it starts. -/
theorem scull_write_at_offset (env : Env) (dev : scull_dev) (buf : List Byte) (p : Nat)
    (w : WriteResult) (hwf : wf_chain dev.quantum dev.qset dev.data)
    (hw : scull_write env dev buf p = some w) :
    dev.quantum * dev.qset ≠ 0 ∧
    w.dev.quantum = dev.quantum ∧ w.dev.qset = dev.qset ∧
    wf_chain dev.quantum dev.qset w.dev.data ∧ dev.data.length ≤ w.dev.data.length ∧
    ((w.retval < 0 ∧ w.dev.size = dev.size ∧ w.f_pos = p) ∨
     (w.retval = (buf.length : Int) ∧ w.f_pos = p + buf.length ∧
      w.dev.size = max dev.size (p + buf.length) ∧
      chain_offset dev.quantum dev.qset p + buf.length + dev.quantum * dev.qset
        ≤ w.dev.data.length * (dev.quantum * dev.qset) ∧
      ∀ j, j < buf.length →
        byte_at w.dev (chain_offset dev.quantum dev.qset p + j) = (buf[j]?).map some)) := by
  have h := scull_write_some env dev buf p w hw
  have h0 := (itemsize_abs _ _ h).2.2.2.1
  rw [scull_write_eq env dev buf p h] at hw
  exact ⟨h0, write_at_spec env dev buf p _ w h0 hwf hw⟩

/-- In front of the end of the data `scull_read` returns whenever `itemsize`
is not 0: a fault, or a count within the clamped length, the cursor advanced
by it.  Only the chain can change, by the empty quantum sets `scull_follow`
adds. -/
theorem scull_read_general (env : Env) (dev : scull_dev) (count p : Nat)
    (h : itemsize dev.quantum dev.qset ≠ 0) (hp : p < dev.size) :
    ∃ r, scull_read env dev count p = some r ∧
      (∃ m, r.dev = { dev with data := dev.data ++ List.replicate m empty_qset }) ∧
      ((r.retval = -EFAULT ∧ r.f_pos = p) ∨
        ∃ k, k ≤ clamp dev count p ∧ r.retval = (k : Int) ∧ r.f_pos = p + k) ∧
      (env.no_copy_fault → r.retval ≠ -EFAULT) := by
  rw [scull_read_eq env dev count p hp h]
  obtain ⟨r, h1, h2, h3, h4⟩ := read_at_general env dev (clamp dev count p) p
    (chain_offset dev.quantum dev.qset p)
  obtain ⟨m, hm1, -⟩ := scull_follow_spec env 0 dev.data
    (chain_offset dev.quantum dev.qset p / (dev.quantum * dev.qset))
  exact ⟨r, h1, ⟨m, by rw [h2, hm1]⟩, h3, h4⟩

/-- A `scull_read` that returns leaves the device but for empty quantum sets
at the end of the chain, none when `itemsize` is 0. -/
theorem scull_read_dev (env : Env) (dev : scull_dev) (count p : Nat) (r : ReadResult)
    (hr : scull_read env dev count p = some r) :
    ∃ m, r.dev = { dev with data := dev.data ++ List.replicate m empty_qset } ∧
      (m = 0 ∨ itemsize dev.quantum dev.qset ≠ 0) := by
  by_cases hp : dev.size ≤ p
  · rw [scull_read_eof env dev count p hp] at hr
    simp only [Option.some.injEq] at hr
    subst hr
    exact ⟨0, by simp, Or.inl rfl⟩
  · by_cases h : itemsize dev.quantum dev.qset = 0
    · rw [scull_read_none env dev count p (by omega) h] at hr
      exact Option.noConfusion hr
    · obtain ⟨r2, h1, ⟨m, h2⟩, -⟩ := scull_read_general env dev count p h (by omega)
      rw [h1] at hr
      simp only [Option.some.injEq] at hr
      subst hr
      exact ⟨m, h2, Or.inr h⟩

/-- On any store, `scull_read` changes neither the size nor quantum nor qset. -/
theorem scull_read_size (env : Env) (dev : scull_dev) (count p : Nat) (r : ReadResult)
    (hr : scull_read env dev count p = some r) :
    r.dev.size = dev.size ∧ r.dev.quantum = dev.quantum ∧ r.dev.qset = dev.qset := by
  obtain ⟨m, h, -⟩ := scull_read_dev env dev count p r hr
  rw [h]
  exact ⟨rfl, rfl, rfl⟩

/-- On any store, `scull_read` leaves every stored byte as it was. -/
theorem scull_read_bytes (env : Env) (dev : scull_dev) (count p : Nat) (r : ReadResult)
    (hr : scull_read env dev count p = some r) (o : Nat) : byte_at r.dev o = byte_at dev o := by
  obtain ⟨m, h, hm⟩ := scull_read_dev env dev count p r hr
  rw [h]
  rcases hm with hm | hm
  · subst hm
    simp [byte_at]
  · exact chain_cell_append_empty dev.quantum dev.qset (itemsize_abs _ _ hm).2.2.2.2.2
      dev.data m o

/-- Every reachable state has the configured geometry, and its slot arrays and
blocks have that geometry. -/
theorem reachable_geo (P : Params) (dev : scull_dev) (h : Reachable P dev) :
    dev.quantum = P.scull_quantum ∧ dev.qset = P.scull_qset ∧
    wf_chain dev.quantum dev.qset dev.data := by
  induction h with
  | fresh =>
    refine ⟨rfl, rfl, ?_⟩
    intro s hs
    simp [scull_init_device] at hs
  | write env dev buf p w _ hw ih =>
    obtain ⟨-, h1, h2, h3, -⟩ := scull_write_at_offset env dev buf p w ih.2.2 hw
    exact ⟨by rw [h1, ih.1], by rw [h2, ih.2.1], by rw [h1, h2]; exact h3⟩
  | read env dev count p r _ hr ih =>
    obtain ⟨m, h, -⟩ := scull_read_dev env dev count p r hr
    rw [h]
    refine ⟨ih.1, ih.2.1, ?_⟩
    show wf_chain dev.quantum dev.qset (dev.data ++ List.replicate m empty_qset)
    rw [wf_chain_append]
    exact ⟨ih.2.2, wf_chain_replicate_empty _ _ _⟩
  | trim dev _ _ =>
    refine ⟨rfl, rfl, ?_⟩
    intro s hs
    simp [scull_trim] at hs
  | opened dev filp _ ih =>
    simp only [scull_open]
    split
    · refine ⟨rfl, rfl, ?_⟩
      intro s hs
      simp [scull_trim] at hs
    · exact ih

/-- With an `itemsize` of 0 no write ever returns, and the device stays as
`scull_init_module` set it up. -/
theorem reachable_degenerate (P : Params) (h : itemsize P.scull_quantum P.scull_qset = 0)
    (dev : scull_dev) (hr : Reachable P dev) : dev = scull_init_device P := by
  induction hr with
  | fresh => rfl
  | write env dev buf p w _ hw ih =>
    subst ih
    have h2 := scull_write_some env _ buf p w hw
    simp only [scull_init_device] at h2
    exact absurd h h2
  | read env dev count p r _ hrd ih =>
    subst ih
    rw [scull_read_eof env _ count p (Nat.zero_le _)] at hrd
    simp only [Option.some.injEq] at hrd
    rw [← hrd]
  | trim dev _ _ => rfl
  | opened dev filp _ ih =>
    subst ih
    simp only [scull_open]
    split <;> rfl

theorem alloc_log_refl (env : Env) (a : Nat) : AllocLog env a a false := by
  simp only [AllocLog]
  exact ⟨by simp, fun k h1 h2 => by omega⟩

theorem alloc_log_trans (env : Env) (a b c : Nat) (f : Bool) (h1 : AllocLog env a b false)
    (h2 : AllocLog env b c f) : AllocLog env a c f := by
  simp only [AllocLog, Bool.false_eq_true, if_false] at h1
  cases f with
  | false =>
    simp only [AllocLog, Bool.false_eq_true, if_false] at h2 ⊢
    refine ⟨by omega, fun k hk1 hk2 => ?_⟩
    by_cases hk : k < b
    · exact h1.2 k hk1 hk
    · exact h2.2 k (by omega) hk2
  | true =>
    simp only [AllocLog, if_true] at h2 ⊢
    refine ⟨by omega, h2.2.1, fun k hk1 hk2 => ?_⟩
    by_cases hk : k < b
    · exact h1.2 k hk1 hk
    · exact h2.2.2 k (by omega) hk2

theorem alloc_log_one (env : Env) (a : Nat) (h : env.kmalloc_ok a = true) :
    AllocLog env a (a + 1) false := by
  simp only [AllocLog, Bool.false_eq_true, if_false]
  refine ⟨by omega, fun k hk1 hk2 => ?_⟩
  have : k = a := by omega
  rw [this]; exact h

theorem alloc_log_fail (env : Env) (a : Nat) (h : env.kmalloc_ok a = false) :
    AllocLog env a (a + 1) true := by
  simp only [AllocLog, if_true]
  exact ⟨by omega, by simpa using h, fun k hk1 hk2 => by omega⟩

/-- The calls of `kmalloc` the pattern `if (!p) p = kmalloc(...)` makes. -/
theorem alloc_if_null_log {α : Type} (env : Env) (a : Nat) (p : Option α) (fresh : α) :
    (alloc_if_null env a p fresh = none → AllocLog env a (a + 1) true) ∧
    (∀ a1 x, alloc_if_null env a p fresh = some (a1, x) → AllocLog env a a1 false) := by
  cases p with
  | some x =>
    simp only [alloc_if_null]
    refine ⟨fun h => by simp at h, fun a1 y h => ?_⟩
    simp only [Option.some.injEq, Prod.mk.injEq] at h
    rw [← h.1]
    exact alloc_log_refl env a
  | none =>
    simp only [alloc_if_null]
    by_cases hk : env.kmalloc_ok a = true
    · rw [if_pos hk]
      refine ⟨fun h => by simp at h, fun a1 y h => ?_⟩
      simp only [Option.some.injEq, Prod.mk.injEq] at h
      rw [← h.1]
      exact alloc_log_one env a hk
    · rw [if_neg hk]
      refine ⟨fun _ => alloc_log_fail env a (by simpa using hk), fun a1 y h => by simp at h⟩

/-- The calls of `kmalloc` the step to the next quantum set makes. -/
theorem link_next_log (env : Env) (a : Nat) (next : List scull_qset) :
    (link_next env a next = none → AllocLog env a (a + 1) true) ∧
    (∀ a2 d2 nx, link_next env a next = some (a2, d2, nx) → AllocLog env a a2 false) := by
  cases next with
  | nil =>
    simp only [link_next]
    by_cases hk : env.kmalloc_ok a = true
    · rw [if_pos hk]
      refine ⟨fun h => by simp at h, fun a2 d2 nx h => ?_⟩
      simp only [Option.some.injEq, Prod.mk.injEq] at h
      rw [← h.1]
      exact alloc_log_one env a hk
    · rw [if_neg hk]
      refine ⟨fun _ => alloc_log_fail env a (by simpa using hk), fun a2 d2 nx h => by simp at h⟩
  | cons d nx0 =>
    simp only [link_next]
    refine ⟨fun h => by simp at h, fun a2 d2 nx h => ?_⟩
    simp only [Option.some.injEq, Prod.mk.injEq] at h
    rw [← h.1]
    exact alloc_log_refl env a

/-- The calls of `kmalloc` the loop of `scull_follow` makes: the last one
failed exactly when `NULL` is returned. -/
theorem follow_walk_log (env : Env) :
    ∀ (n a : Nat) (before : List scull_qset) (qs : scull_qset) (next : List scull_qset),
      AllocLog env a (follow_walk env n a before qs next).a
        (follow_walk env n a before qs next).qs.isNone := by
  intro n
  induction n with
  | zero =>
    intro a before qs next
    simp only [follow_walk, Option.isNone_some]
    exact alloc_log_refl env a
  | succ n ih =>
    intro a before qs next
    cases next with
    | nil =>
      rw [follow_walk]
      by_cases hk : env.kmalloc_ok a = true
      · rw [if_pos hk]
        exact alloc_log_trans env a (a + 1) _ _ (alloc_log_one env a hk) (ih (a + 1) _ _ _)
      · rw [if_neg hk]
        exact alloc_log_fail env a (by simpa using hk)
    | cons q2 nx =>
      rw [follow_walk]
      exact ih a _ q2 nx

/-- The calls of `kmalloc` `scull_follow` makes: the last one failed exactly
when `NULL` is returned. -/
theorem scull_follow_log (env : Env) (a : Nat) (chain : List scull_qset) (n : Nat) :
    AllocLog env a (scull_follow env a chain n).a (scull_follow env a chain n).qs.isNone := by
  cases chain with
  | nil =>
    rw [scull_follow]
    by_cases hk : env.kmalloc_ok a = true
    · simp only [hk, if_true]
      exact alloc_log_trans env a (a + 1) _ _ (alloc_log_one env a hk)
        (follow_walk_log env n (a + 1) _ _ _)
    · simp only [hk]
      exact alloc_log_fail env a (by simpa using hk)
  | cons q nx =>
    rw [scull_follow]
    exact follow_walk_log env n a [] q nx

/-- The calls of `kmalloc` the `for` loop of `scull_write` makes: the last one
failed exactly when the loop is left with `-ENOMEM`. -/
theorem write_slots_log (env : Env) (q : Nat) :
    ∀ (n i a c : Nat) (arr : List (Option Quantum)) (qp : Nat) (buf : List Byte),
      AllocLog env a (write_slots env q n i a c arr qp buf).a
        (decide ((write_slots env q n i a c arr qp buf).st = .enomem)) := by
  intro n
  induction n with
  | zero =>
    intro i a c arr qp buf
    simp only [write_slots]
    exact alloc_log_refl env a
  | succ n ih =>
    intro i a c arr qp buf
    by_cases hb : buf.length = 0
    · rw [write_slots_nil env q n i a c arr qp buf hb]
      exact alloc_log_refl env a
    · obtain ⟨hl1, hl2⟩ := alloc_if_null_log env a (arr.getD i none) (List.replicate q none)
      rw [write_slots]
      simp only [hb, if_false]
      cases hal : alloc_if_null env a (arr.getD i none) (List.replicate q none) with
      | none =>
        simp only
        exact hl1 hal
      | some x =>
        obtain ⟨a1, blk⟩ := x
        simp only
        by_cases hc : env.copy_ok c = true
        · simp only [hc, if_true]
          exact alloc_log_trans env a a1 _ _ (hl2 a1 blk hal) (ih _ _ _ _ _ _)
        · simp only [hc]
          exact hl2 a1 blk hal

/-- The calls of `kmalloc` the `do ... while` loop of `scull_write` makes: the
last one failed exactly when the loop is left with `-ENOMEM`. -/
theorem write_loop_log (env : Env) (q qs : Nat) :
    ∀ (fuel a c : Nat) (dptr : scull_qset) (next : List scull_qset) (sp qp : Nat)
      (buf : List Byte),
      AllocLog env a (write_loop env q qs fuel a c dptr next sp qp buf).a
        (decide ((write_loop env q qs fuel a c dptr next sp qp buf).st = .enomem)) := by
  intro fuel
  induction fuel with
  | zero =>
    intro a c dptr next sp qp buf
    simp only [write_loop]
    exact alloc_log_refl env a
  | succ fuel ih =>
    intro a c dptr next sp qp buf
    obtain ⟨hl1, hl2⟩ := alloc_if_null_log env a dptr.data (List.replicate qs none)
    rw [write_loop]
    cases hal : alloc_if_null env a dptr.data (List.replicate qs none) with
    | none =>
      simp only
      exact hl1 hal
    | some x =>
      obtain ⟨a1, arr⟩ := x
      simp only
      have hs := write_slots_log env q (qs - sp) sp a1 c arr qp buf
      have h1 := hl2 a1 arr hal
      have hcases : (write_slots env q (qs - sp) sp a1 c arr qp buf).st = .done ∨
          (write_slots env q (qs - sp) sp a1 c arr qp buf).st = .enomem ∨
          (write_slots env q (qs - sp) sp a1 c arr qp buf).st = .efault ∨
          (write_slots env q (qs - sp) sp a1 c arr qp buf).st = .nofuel := by
        cases (write_slots env q (qs - sp) sp a1 c arr qp buf).st <;> simp
      rcases hcases with hst | hst | hst | hst
      · simp only [hst]
        rw [hst] at hs
        have h2 := alloc_log_trans env a a1 _ _ h1 hs
        obtain ⟨hn1, hn2⟩ := link_next_log env
          (write_slots env q (qs - sp) sp a1 c arr qp buf).a next
        cases hln : link_next env (write_slots env q (qs - sp) sp a1 c arr qp buf).a next with
        | none =>
          simp only
          exact alloc_log_trans env a _ _ _ h2 (hn1 hln)
        | some y =>
          obtain ⟨a2, d2, nx⟩ := y
          simp only
          have h3 := alloc_log_trans env a _ _ _ h2 (hn2 a2 d2 nx hln)
          by_cases hb : (write_slots env q (qs - sp) sp a1 c arr qp buf).buf.length = 0
          · simp only [hb, if_true]
            exact h3
          · simp only [hb, if_false]
            exact alloc_log_trans env a a2 _ _ h3 (ih _ _ _ _ _ _ _)
      · simp only [hst]
        rw [hst] at hs
        exact alloc_log_trans env a a1 _ _ h1 hs
      · simp only [hst]
        rw [hst] at hs
        exact alloc_log_trans env a a1 _ _ h1 hs
      · simp only [hst]
        rw [hst] at hs
        exact alloc_log_trans env a a1 _ _ h1 hs

/-- The calls of `kmalloc` a `scull_write` makes: the last one failed exactly
when `-ENOMEM` is returned. -/
theorem write_at_log (env : Env) (dev : scull_dev) (buf : List Byte) (p n sp qp : Nat)
    (w : WriteResult) (hw : write_at env dev buf p n sp qp = some w) :
    AllocLog env 0 w.kmallocs (decide (w.retval = -ENOMEM)) := by
  have hf := scull_follow_log env 0 dev.data n
  simp only [write_at] at hw
  split at hw
  · rename_i hqs
    simp only [Option.some.injEq] at hw
    subst hw
    rw [hqs] at hf
    simpa using hf
  · rename_i dptr next hqs
    rw [hqs] at hf
    simp only [Option.isNone_some] at hf
    have hl := write_loop_log env dev.quantum dev.qset (buf.length + 1)
      (scull_follow env 0 dev.data n).a 0 dptr next sp qp buf
    have h2 := alloc_log_trans env 0 _ _ _ hf hl
    split at hw
    · rename_i hst
      simp only [Option.some.injEq] at hw
      subst hw
      rw [hst] at h2
      have hne : ¬ ((buf.length : Int) = -ENOMEM) := by simp only [ENOMEM]; omega
      simpa [hne] using h2
    · rename_i hst
      simp only [Option.some.injEq] at hw
      subst hw
      rw [hst] at h2
      simpa using h2
    · rename_i hst
      simp only [Option.some.injEq] at hw
      subst hw
      rw [hst] at h2
      have hne : ¬ (-EFAULT = -ENOMEM) := by decide
      simpa [hne] using h2
    · simp at hw

/-- The calls of `kmalloc` a `scull_write` makes: when one of them failed, it
was the last one and `-ENOMEM` is returned; when `-ENOMEM` is returned, the
last one failed. -/
theorem scull_write_log (env : Env) (dev : scull_dev) (buf : List Byte) (p : Nat)
    (w : WriteResult) (hw : scull_write env dev buf p = some w) :
    ((∃ k, k < w.kmallocs ∧ env.kmalloc_ok k = false) → w.retval = -ENOMEM) ∧
    (w.retval = -ENOMEM → 0 < w.kmallocs ∧ env.kmalloc_ok (w.kmallocs - 1) = false ∧
      ∀ k, k < w.kmallocs - 1 → env.kmalloc_ok k = true) := by
  rw [scull_write_eq env dev buf p (scull_write_some env dev buf p w hw)] at hw
  have h := write_at_log env dev buf p _ _ _ w hw
  by_cases hr : w.retval = -ENOMEM
  · simp only [AllocLog, hr, decide_True, if_true] at h
    exact ⟨fun _ => hr, fun _ => ⟨h.1, h.2.1, fun k hk => h.2.2 k (Nat.zero_le _) hk⟩⟩
  · simp only [AllocLog, hr, decide_False, Bool.false_eq_true, if_false] at h
    refine ⟨?_, fun h2 => absurd h2 hr⟩
    rintro ⟨k, hk1, hk2⟩
    have := h.2 k (Nat.zero_le _) hk1
    rw [this] at hk2
    exact absurd hk2 (by simp)

theorem traced_reachable (P : Params) (dev : scull_dev) (m : Nat) (h : Traced P dev m) :
    Reachable P dev := by
  induction h with
  | fresh => exact Reachable.fresh
  | write_done env dev buf p w m _ hw _ ih => exact Reachable.write env dev buf p w ih hw
  | write_failed env dev buf p w m _ hw _ ih => exact Reachable.write env dev buf p w ih hw
  | read env dev count p r m _ hr ih => exact Reachable.read env dev count p r ih hr
  | trim dev m _ ih => exact Reachable.trim dev ih
  | opened dev filp m _ ih => exact Reachable.opened dev filp ih

/-- Every reachable state is traced: a write that returns either ran to its
end or failed. -/
theorem reachable_traced (P : Params) (dev : scull_dev) (h : Reachable P dev) :
    ∃ m, Traced P dev m := by
  induction h with
  | fresh => exact ⟨0, Traced.fresh⟩
  | write env dev buf p w _ hw ih =>
    obtain ⟨m, hm⟩ := ih
    obtain ⟨-, -, h⟩ := scull_write_size env dev buf p w hw
    rcases h with ⟨h, -, -⟩ | ⟨h, -, -⟩
    · exact ⟨m, Traced.write_failed env dev buf p w m hm hw
        (by rcases h with h | h <;> rw [h] <;> decide)⟩
    · exact ⟨_, Traced.write_done env dev buf p w m hm hw h⟩
  | read env dev count p r _ hr ih =>
    obtain ⟨m, hm⟩ := ih
    exact ⟨m, Traced.read env dev count p r m hm hr⟩
  | trim dev _ ih =>
    obtain ⟨m, hm⟩ := ih
    exact ⟨0, Traced.trim dev m hm⟩
  | opened dev filp _ ih =>
    obtain ⟨m, hm⟩ := ih
    exact ⟨_, Traced.opened dev filp m hm⟩

theorem wrapped_dev_reachable : Reachable ⟨2, 2⟩ wrapped_dev :=
  Reachable.write Env.reliable (scull_init_device ⟨2, 2⟩) [66] 17179869184
    ⟨1, 17179869185, wrapped_dev, 4⟩ Reachable.fresh rfl

/-- An `itemsize` is 0 when quantum or qset is 0. -/
theorem itemsize_zero (q qs : Nat) (h : q = 0 ∨ qs = 0) : itemsize q qs = 0 := by
  by_contra hne
  obtain ⟨-, -, -, -, hq, hqs⟩ := itemsize_abs q qs hne
  omega

/-- When the product of quantum and qset fits an `int` and is not 0,
`itemsize` is not 0. -/
theorem itemsize_ne_zero (q qs : Nat) (h0 : q * qs ≠ 0) (hI : q * qs ≤ INT_MAX) :
    itemsize q qs ≠ 0 :=
  (chain_offset_fit q qs 0 h0 hI).1

theorem to_loff_t_of_lt (x : Int) (h0 : -9223372036854775808 ≤ x)
    (h1 : x < 9223372036854775808) : to_loff_t x = x := by
  unfold to_loff_t; omega

/-! ## The properties of the specification -/

/-- C1. Write/read round trip: in every reachable state, when `scull_write` of
`buf` at cursor `p` succeeds (it returns the length of `buf`), a `scull_read`
of that length at `p` in which no copy faults returns exactly the bytes of
`buf` and leaves the cursor at `p + buf.length`. -/
theorem write_read_round_trip (P : Params) (hq : 0 < P.scull_quantum) (hqs : 0 < P.scull_qset)
    (dev : scull_dev) (hr : Reachable P dev) (env env2 : Env) (buf : List Byte) (p : Nat)
    (w : WriteResult) (hw : scull_write env dev buf p = some w)
    (hok : w.retval = (buf.length : Int)) (hc : env2.no_copy_fault) :
    ∃ r, scull_read env2 w.dev buf.length p = some r ∧ r.retval = (buf.length : Int) ∧
      r.out = buf.map some ∧ r.f_pos = p + buf.length := by
  have hgeo := reachable_geo P dev hr
  have hpos : 0 < dev.quantum ∧ 0 < dev.qset := by rw [hgeo.1, hgeo.2.1]; exact ⟨hq, hqs⟩
  have hne := scull_write_some env dev buf p w hw
  obtain ⟨h0, h1, h2, h3, h4, h5⟩ := scull_write_at_offset env dev buf p w hgeo.2.2 hw
  have hI : 0 < dev.quantum * dev.qset := Nat.pos_of_ne_zero h0
  rcases h5 with ⟨h5, -⟩ | ⟨-, -, h6, h7, h8⟩
  · omega
  · by_cases hp : w.dev.size ≤ p
    · have hn : buf.length = 0 := by
        rw [h6] at hp
        have := Nat.le_max_right dev.size (p + buf.length)
        omega
      have hnil : buf = [] := List.length_eq_zero.mp hn
      subst hnil
      rw [scull_read_eof env2 w.dev _ p hp]
      exact ⟨_, rfl, rfl, rfl, rfl⟩
    · have hne2 : itemsize w.dev.quantum w.dev.qset ≠ 0 := by rw [h1, h2]; exact hne
      have h02 : w.dev.quantum * w.dev.qset ≠ 0 := by rw [h1, h2]; exact h0
      have hlen : chain_offset dev.quantum dev.qset p / (dev.quantum * dev.qset)
          < w.dev.data.length := by
        apply Nat.div_lt_of_lt_mul
        rw [Nat.mul_comm]
        omega
      have hrd := scull_read_eq env2 w.dev buf.length p (by omega) hne2
      obtain ⟨r, hr1, -, hr3, hr4⟩ := read_at_spec env2 w.dev (clamp w.dev buf.length p) p
        (chain_offset w.dev.quantum w.dev.qset p) h02 (by rw [h1, h2]; exact h3)
        (by rw [h1, h2]; exact hlen)
      rw [← hrd] at hr1
      rw [h1, h2] at hr3
      rcases hr3 with ⟨hr3, -⟩ | ⟨k, hk1, hk2, hk3, hk4, hk5, hk6⟩
      · exact absurd hr3 (hr4 hc)
      · have hsz : p + buf.length ≤ w.dev.size := by rw [h6]; exact Nat.le_max_right _ _
        have hcl : clamp w.dev buf.length p = buf.length := by
          rw [clamp_eq_min _ _ _ (by omega)]; omega
        rw [hcl] at hk1 hk6
        have hkn : k = buf.length := by
          by_contra hne3
          have hlt : k < buf.length := by omega
          have hb := h8 k hlt
          have hs := hk6 hlt
          have hb2 : byte_at w.dev (chain_offset dev.quantum dev.qset p + k) ≠ none := by
            rw [hb, List.getElem?_eq_getElem hlt]; simp
          have hs2 := byte_at_slot w.dev _ hb2
          rw [h1] at hs2
          exact hs2 hs
        subst hkn
        refine ⟨r, hr1, hk2, ?_, hk3⟩
        apply List.ext_getElem?
        intro j
        by_cases hj : j < r.out.length
        · rw [← hk5 j (by omega), h8 j (by omega), List.getElem?_map]
        · rw [List.getElem?_eq_none (by omega), List.getElem?_eq_none (by simp; omega)]

theorem write_read_round_trip_witness :
    scull_write Env.reliable (scull_init_device ⟨2, 2⟩) [1, 2, 3, 4, 5, 6, 7] 1
      = some ⟨7, 8, two_segment_dev, 9⟩ ∧
    ∃ r, scull_read Env.reliable two_segment_dev 7 1 = some r ∧ r.retval = 7 ∧
      r.out = [some 1, some 2, some 3, some 4, some 5, some 6, some 7] ∧ r.f_pos = 1 + 7 :=
  ⟨rfl, write_read_round_trip ⟨2, 2⟩ (by decide) (by decide) (scull_init_device ⟨2, 2⟩)
    Reachable.fresh Env.reliable Env.reliable [1, 2, 3, 4, 5, 6, 7] 1
    ⟨7, 8, two_segment_dev, 9⟩ rfl rfl (fun _ => rfl)⟩

/-- C3. Read length bound and end of data: a `scull_read` that returns without
a fault returns a count `k` with `k ≤ N`, advances the cursor by exactly `k`,
stays within the size when the cursor is in front of it, and returns 0 when
the cursor is at or past the size (so every read of a fresh store returns 0).
It returns exactly when `itemsize` is not 0 or the cursor is at or past the
size: so whenever quantum and qset are positive and their product fits an
`int`, and in every reachable state. -/
theorem scull_read_bounds (env : Env) (dev : scull_dev) (N p : Nat) :
    (∀ r, scull_read env dev N p = some r → r.retval ≠ -EFAULT →
      ∃ k : Nat, r.retval = (k : Int) ∧ k ≤ N ∧ r.f_pos = p + k ∧
        (p < dev.size → p + k ≤ dev.size) ∧ (dev.size ≤ p → k = 0)) ∧
    ((scull_read env dev N p).isSome ↔ (itemsize dev.quantum dev.qset ≠ 0 ∨ dev.size ≤ p)) ∧
    ((0 < dev.quantum ∧ 0 < dev.qset ∧ dev.quantum * dev.qset ≤ INT_MAX) ∨ dev.size ≤ p →
      (scull_read env dev N p).isSome) ∧
    (∀ P : Params, Reachable P dev → (scull_read env dev N p).isSome) ∧
    (∀ P : Params, scull_read env (scull_init_device P) N p
      = some ⟨0, p, scull_init_device P, []⟩) := by
  have hsome : (scull_read env dev N p).isSome
      ↔ (itemsize dev.quantum dev.qset ≠ 0 ∨ dev.size ≤ p) := by
    by_cases hp : dev.size ≤ p
    · rw [scull_read_eof env dev N p hp]
      simp [hp]
    · by_cases h0 : itemsize dev.quantum dev.qset = 0
      · rw [scull_read_none env dev N p (by omega) h0]
        simp [h0, hp]
      · obtain ⟨r2, h1, -⟩ := scull_read_general env dev N p h0 (by omega)
        rw [h1]
        simp [h0]
  refine ⟨?_, hsome, ?_, ?_, ?_⟩
  · intro r hr hne
    by_cases hp : dev.size ≤ p
    · rw [scull_read_eof env dev N p hp] at hr
      simp only [Option.some.injEq] at hr
      subst hr
      exact ⟨0, rfl, Nat.zero_le _, rfl, fun h => by omega, fun _ => rfl⟩
    · by_cases h0 : itemsize dev.quantum dev.qset = 0
      · rw [scull_read_none env dev N p (by omega) h0] at hr
        exact Option.noConfusion hr
      · obtain ⟨r2, h1, -, h3, -⟩ := scull_read_general env dev N p h0 (by omega)
        rw [h1] at hr
        simp only [Option.some.injEq] at hr
        subst hr
        rcases h3 with ⟨h3, -⟩ | ⟨k, h4, h5, h6⟩
        · exact absurd h3 hne
        · have := clamp_le dev N p (by omega)
          exact ⟨k, h5, by omega, h6, fun _ => by omega, fun h => by omega⟩
  · intro h
    rw [hsome]
    rcases h with ⟨hq, hqs, hI⟩ | h
    · exact Or.inl (itemsize_ne_zero _ _ (Nat.mul_ne_zero (by omega) (by omega)) hI)
    · exact Or.inr h
  · intro P hrch
    rw [hsome]
    by_cases h0 : itemsize dev.quantum dev.qset = 0
    · obtain ⟨h1, h2, -⟩ := reachable_geo P dev hrch
      rw [h1, h2] at h0
      rw [reachable_degenerate P h0 dev hrch]
      exact Or.inr (Nat.zero_le p)
    · exact Or.inl h0
  · intro P
    exact scull_read_eof env _ N p (Nat.zero_le _)

/-- C6, as the code has it. Seek arithmetic: `scull_llseek` computes `off` for
SEEK_SET, and for SEEK_CUR and SEEK_END the sums `f_pos + off` and
`size + off` wrapped to a `loff_t`; when the position computed is not negative
it returns it and stores it as the cursor, beyond the size too (the device is
not an output of the function).  So it returns and stores `f_pos + off` and
`size + off` when these are not negative and at most `2^63 - 1`.  After `K`
bytes are written at offset 0 of a fresh store, seeking to 0 from the end
returns `K`. -/
theorem scull_llseek_arithmetic (dev : scull_dev) (filp : file) (off : Int) :
    (0 ≤ off → scull_llseek dev filp off 0 = ⟨off, { filp with f_pos := off }⟩) ∧
    (0 ≤ filp.f_pos + off → filp.f_pos + off ≤ 9223372036854775807 →
      scull_llseek dev filp off 1
        = ⟨filp.f_pos + off, { filp with f_pos := filp.f_pos + off }⟩) ∧
    (0 ≤ (dev.size : Int) + off → (dev.size : Int) + off ≤ 9223372036854775807 →
      scull_llseek dev filp off 2
        = ⟨(dev.size : Int) + off, { filp with f_pos := (dev.size : Int) + off }⟩) ∧
    (0 ≤ to_loff_t (filp.f_pos + off) → scull_llseek dev filp off 1
      = ⟨to_loff_t (filp.f_pos + off), { filp with f_pos := to_loff_t (filp.f_pos + off) }⟩) ∧
    (0 ≤ to_loff_t ((dev.size : Int) + off) → scull_llseek dev filp off 2
      = ⟨to_loff_t ((dev.size : Int) + off),
          { filp with f_pos := to_loff_t ((dev.size : Int) + off) }⟩) ∧
    (∀ (P : Params) (env : Env) (buf : List Byte),
      itemsize P.scull_quantum P.scull_qset ≠ 0 →
      env.no_alloc_failure → env.no_copy_fault → (buf.length : Int) ≤ 9223372036854775807 →
      ∃ w, scull_write env (scull_init_device P) buf 0 = some w ∧
        w.retval = (buf.length : Int) ∧
        (scull_llseek w.dev filp 0 2).retval = (buf.length : Int)) := by
  have hcur : 0 ≤ to_loff_t (filp.f_pos + off) → scull_llseek dev filp off 1
      = ⟨to_loff_t (filp.f_pos + off),
          { filp with f_pos := to_loff_t (filp.f_pos + off) }⟩ := by
    intro h
    simp [scull_llseek, Int.not_lt.mpr h]
  have hend : ∀ d : scull_dev, 0 ≤ to_loff_t ((d.size : Int) + off) →
      scull_llseek d filp off 2
        = ⟨to_loff_t ((d.size : Int) + off),
            { filp with f_pos := to_loff_t ((d.size : Int) + off) }⟩ := by
    intro d h
    simp [scull_llseek, Int.not_lt.mpr h]
  refine ⟨?_, ?_, ?_, hcur, hend dev, ?_⟩
  · intro h
    simp [scull_llseek, Int.not_lt.mpr h]
  · intro h1 h2
    have e := to_loff_t_of_lt (filp.f_pos + off) (by omega) (by omega)
    have := hcur (by rw [e]; exact h1)
    rw [e] at this
    exact this
  · intro h1 h2
    have e := to_loff_t_of_lt ((dev.size : Int) + off) (by omega) (by omega)
    have := hend dev (by rw [e]; exact h1)
    rw [e] at this
    exact this
  · intro P env buf hne ha hc hlen
    obtain ⟨w, h1, h2, -, h4, -⟩ := scull_write_ok env (scull_init_device P) buf 0 hne ha hc
    refine ⟨w, h1, h2, ?_⟩
    have hs : w.dev.size = buf.length := by simp [h4, scull_init_device]
    have e := to_loff_t_of_lt ((buf.length : Int) + 0) (by omega) (by omega)
    simp only [scull_llseek, hs, e]
    simp only [Int.add_zero, if_true, OfNat.ofNat_ne_zero, OfNat.ofNat_ne_one, if_false]
    rw [if_neg (by omega)]

/-- C6 as stated fails: with the cursor at `2^63 - 1`, the largest `loff_t`,
seeking 1 from the current position computes `2^63`, which is not negative,
yet `scull_llseek` returns `-EINVAL` and leaves the cursor: the sum wraps to
`-2^63`. -/
theorem scull_llseek_arithmetic_counterexample :
    (0 : Int) ≤ (⟨0, 9223372036854775807⟩ : file).f_pos + 1 ∧
    scull_llseek (scull_init_device ⟨2, 2⟩) ⟨0, 9223372036854775807⟩ 1 1
      = ⟨-EINVAL, ⟨0, 9223372036854775807⟩⟩ ∧
    scull_llseek (scull_init_device ⟨2, 2⟩) ⟨0, 0⟩ 9223372036854775807 0
      = ⟨9223372036854775807, ⟨0, 9223372036854775807⟩⟩ :=
  ⟨by decide, rfl, rfl⟩

/-- C7, as the code has it. Seek rejection: `scull_llseek` returns `-EINVAL`
exactly when the position it computes, which for SEEK_CUR and SEEK_END is the
sum wrapped to a `loff_t`, is negative or `whence` is none of 0, 1, 2; it then
leaves the cursor as it was.  A sum that lies in the range of `loff_t` is not
changed by the wrapping.  Seeking to -1 from the start is rejected. -/
theorem scull_llseek_rejection (dev : scull_dev) (filp : file) (off whence : Int) :
    ((scull_llseek dev filp off whence).retval = -EINVAL ↔
      (whence = 0 ∧ off < 0) ∨ (whence = 1 ∧ to_loff_t (filp.f_pos + off) < 0) ∨
      (whence = 2 ∧ to_loff_t ((dev.size : Int) + off) < 0) ∨
      (whence ≠ 0 ∧ whence ≠ 1 ∧ whence ≠ 2)) ∧
    ((scull_llseek dev filp off whence).retval = -EINVAL →
      (scull_llseek dev filp off whence).filp = filp) ∧
    (∀ x : Int, -9223372036854775808 ≤ x → x ≤ 9223372036854775807 → to_loff_t x = x) ∧
    scull_llseek dev filp (-1) 0 = ⟨-EINVAL, filp⟩ := by
  refine ⟨?_, ?_, fun x h0 h1 => to_loff_t_of_lt x h0 (by omega), ?_⟩
  · simp only [scull_llseek, EINVAL]
    by_cases h0 : whence = 0
    · subst h0
      by_cases h : off < 0
      · simp [h]
      · simp [h]; omega
    · by_cases h1 : whence = 1
      · subst h1
        by_cases h : to_loff_t (filp.f_pos + off) < 0
        · simp [h]
        · simp [h]; omega
      · by_cases h2 : whence = 2
        · subst h2
          by_cases h : to_loff_t ((dev.size : Int) + off) < 0
          · simp [h]
          · simp [h]; omega
        · simp [h0, h1, h2]
  · simp only [scull_llseek, EINVAL]
    by_cases h0 : whence = 0
    · subst h0
      by_cases h : off < 0
      · simp [h]
      · simp [h]; omega
    · by_cases h1 : whence = 1
      · subst h1
        by_cases h : to_loff_t (filp.f_pos + off) < 0
        · simp [h]
        · simp [h]; omega
      · by_cases h2 : whence = 2
        · subst h2
          by_cases h : to_loff_t ((dev.size : Int) + off) < 0
          · simp [h]
          · simp [h]; omega
        · simp [h0, h1, h2]
  · simp [scull_llseek]

/-- C7 as stated fails: with the cursor at `2^63 - 1`, seeking 1 from the
current position is rejected with `-EINVAL` although `whence` is SEEK_CUR and
the position `f_pos + off = 2^63` is not negative: the rejected value is the
sum wrapped to a `loff_t`, `-2^63`. -/
theorem scull_llseek_rejection_counterexample :
    (scull_llseek (scull_init_device ⟨2, 2⟩) ⟨0, 9223372036854775807⟩ 1 1).retval = -EINVAL ∧
    ¬ ((⟨0, 9223372036854775807⟩ : file).f_pos + 1 < 0) ∧
    to_loff_t ((⟨0, 9223372036854775807⟩ : file).f_pos + 1) = -9223372036854775808 :=
  ⟨rfl, by decide, rfl⟩

/-- C8. Trim postcondition and idempotence: on every store `scull_trim`
returns 0 and leaves size 0, an empty chain, and quantum and qset equal to
`scull_quantum` and `scull_qset`; trimming twice gives what trimming once gives. -/
theorem scull_trim_postcondition (P : Params) (dev : scull_dev) :
    (scull_trim P dev).1 = 0 ∧ (scull_trim P dev).2.size = 0 ∧
    (scull_trim P dev).2.data = [] ∧
    (scull_trim P dev).2.quantum = P.scull_quantum ∧
    (scull_trim P dev).2.qset = P.scull_qset ∧
    scull_trim P (scull_trim P dev).2 = scull_trim P dev ∧
    scull_trim P (scull_init_device P) = (0, scull_init_device P) :=
  ⟨rfl, rfl, rfl, rfl, rfl, rfl, rfl⟩

/-- C9. Open-time policy: opening write-only without the append flag leaves the
store trimmed, so that a read at offset 0 returns 0 bytes; opening with the
append flag puts the cursor at the size and does not trim; opening in any
other mode changes neither the store nor the cursor.  After a write of 100
bytes to a fresh store has succeeded, the first returns 0 bytes on a read at 0
and the second puts the cursor at 100; such a write succeeds whenever
`itemsize` is not 0 and nothing fails. -/
theorem scull_open_policy (P : Params) (dev : scull_dev) (filp : file) :
    ((filp.f_flags &&& O_ACCMODE) = O_WRONLY → (filp.f_flags &&& O_APPEND) = 0 →
      (scull_open P dev filp).dev = (scull_trim P dev).2 ∧
      (scull_open P dev filp).dev.size = 0 ∧ (scull_open P dev filp).dev.data = [] ∧
      (scull_open P dev filp).filp = filp ∧
      ∀ (env : Env) (N : Nat), scull_read env (scull_open P dev filp).dev N 0
        = some ⟨0, 0, (scull_open P dev filp).dev, []⟩) ∧
    ((filp.f_flags &&& O_APPEND) ≠ 0 →
      (scull_open P dev filp).dev = dev ∧
      (scull_open P dev filp).filp = { filp with f_pos := (dev.size : Int) }) ∧
    ((filp.f_flags &&& O_ACCMODE) ≠ O_WRONLY → (filp.f_flags &&& O_APPEND) = 0 →
      (scull_open P dev filp).dev = dev ∧ (scull_open P dev filp).filp = filp) ∧
    (scull_open P dev filp).retval = 0 ∧
    (∀ (env : Env) (buf : List Byte) (w : WriteResult), buf.length = 100 →
      scull_write env (scull_init_device P) buf 0 = some w → w.retval = 100 →
        (∀ (env2 : Env) (N : Nat),
          scull_read env2 (scull_open P w.dev ⟨O_WRONLY, 0⟩).dev N 0
            = some ⟨0, 0, (scull_open P w.dev ⟨O_WRONLY, 0⟩).dev, []⟩) ∧
        (scull_open P w.dev ⟨O_WRONLY ||| O_APPEND, 0⟩).filp.f_pos = 100 ∧
        (scull_open P w.dev ⟨O_WRONLY ||| O_APPEND, 0⟩).dev = w.dev) ∧
    (∀ (env : Env) (buf : List Byte), itemsize P.scull_quantum P.scull_qset ≠ 0 →
      env.no_alloc_failure → env.no_copy_fault → buf.length = 100 →
      ∃ w, scull_write env (scull_init_device P) buf 0 = some w ∧ w.retval = 100) := by
  refine ⟨?_, ?_, ?_, rfl, ?_, ?_⟩
  · intro h1 h2
    have hd : (scull_open P dev filp).dev = (scull_trim P dev).2 := by
      simp [scull_open, h1, h2]
    refine ⟨hd, by rw [hd]; rfl, by rw [hd]; rfl, by simp [scull_open, h2], ?_⟩
    intro env N
    exact scull_read_eof env _ N 0 (by rw [hd]; exact Nat.le_refl 0)
  · intro h
    simp [scull_open, h]
  · intro h1 h2
    simp [scull_open, h1, h2]
  · intro env buf w hlen hw hok
    obtain ⟨-, -, h⟩ := scull_write_size env _ buf 0 w hw
    have hs : w.dev.size = 100 := by
      rcases h with ⟨h, -, -⟩ | ⟨-, -, h⟩
      · rcases h with h | h
        · rw [h] at hok; simp only [ENOMEM] at hok; omega
        · rw [h] at hok; simp only [EFAULT] at hok; omega
      · simp [h, scull_init_device, hlen]
    refine ⟨?_, ?_, ?_⟩
    · intro env2 N
      exact scull_read_eof env2 _ N 0 (Nat.le_of_eq rfl)
    · have : (O_WRONLY ||| O_APPEND) &&& O_APPEND ≠ 0 := by decide
      simp [scull_open, this, hs]
    · have h5 : (O_WRONLY ||| O_APPEND) &&& O_APPEND ≠ 0 := by decide
      simp [scull_open, h5]
  · intro env buf hne ha hc hlen
    obtain ⟨w, h1, h2, -⟩ := scull_write_ok env (scull_init_device P) buf 0 hne ha hc
    exact ⟨w, h1, by rw [h2, hlen]; rfl⟩

/-- C12, as the code has it. A `scull_write` returns the whole length, or
`-ENOMEM`, or `-EFAULT`, never a count of the bytes copied before a failure.
When one of the calls of `kmalloc` it makes (for a quantum set, a slot array
or a block) fails, it returns `-ENOMEM`, whatever it has copied, and leaves
the cursor and the size as they were; and when it returns `-ENOMEM`, the last
call of `kmalloc` it made has failed. -/
theorem scull_write_enomem (env : Env) (dev : scull_dev) (buf : List Byte) (p : Nat)
    (w : WriteResult) (hw : scull_write env dev buf p = some w) :
    (w.retval = (buf.length : Int) ∨ w.retval = -ENOMEM ∨ w.retval = -EFAULT) ∧
    (w.retval ≠ (buf.length : Int) → w.f_pos = p ∧ w.dev.size = dev.size) ∧
    ((∃ k, k < w.kmallocs ∧ env.kmalloc_ok k = false) →
      w.retval = -ENOMEM ∧ w.f_pos = p ∧ w.dev.size = dev.size) ∧
    (w.retval = -ENOMEM → 0 < w.kmallocs ∧ env.kmalloc_ok (w.kmallocs - 1) = false ∧
      ∀ k, k < w.kmallocs - 1 → env.kmalloc_ok k = true) := by
  obtain ⟨-, -, h⟩ := scull_write_size env dev buf p w hw
  obtain ⟨hl1, hl2⟩ := scull_write_log env dev buf p w hw
  have hkeep : w.retval ≠ (buf.length : Int) → w.f_pos = p ∧ w.dev.size = dev.size := by
    intro hne
    rcases h with ⟨-, h1, h2⟩ | ⟨h, -, -⟩
    · exact ⟨h2, h1⟩
    · exact absurd h hne
  refine ⟨?_, hkeep, ?_, hl2⟩
  · rcases h with ⟨h | h, -, -⟩ | ⟨h, -, -⟩
    · exact Or.inr (Or.inl h)
    · exact Or.inr (Or.inr h)
    · exact Or.inl h
  · intro hk
    have hr := hl1 hk
    refine ⟨hr, hkeep ?_⟩
    rw [hr]
    simp only [ENOMEM]
    omega

theorem scull_write_enomem_witness :
    scull_write fourth_kmalloc_fails (scull_init_device ⟨2, 2⟩) [1, 2, 3] 0
      = some ⟨-ENOMEM, 0, failed_write_dev, 4⟩ ∧
    fourth_kmalloc_fails.kmalloc_ok 3 = false ∧
    ((⟨-ENOMEM, 0, failed_write_dev, 4⟩ : WriteResult).retval = -ENOMEM ∧
      (⟨-ENOMEM, 0, failed_write_dev, 4⟩ : WriteResult).f_pos = 0 ∧
      (⟨-ENOMEM, 0, failed_write_dev, 4⟩ : WriteResult).dev.size
        = (scull_init_device ⟨2, 2⟩).size) :=
  ⟨rfl, rfl, (scull_write_enomem fourth_kmalloc_fails (scull_init_device ⟨2, 2⟩) [1, 2, 3] 0
    ⟨-ENOMEM, 0, failed_write_dev, 4⟩ rfl).2.2.1 ⟨3, by decide, rfl⟩⟩

/-- C12 as stated fails: on a fresh store with quantum 2 and qset 2, a write of
the bytes 1, 2, 3 at offset 0 in which the fourth `kmalloc` (the block of slot
1) fails has copied 2 bytes into the store, and returns `-ENOMEM`, not 2. -/
theorem scull_write_enomem_counterexample :
    scull_write fourth_kmalloc_fails (scull_init_device ⟨2, 2⟩) [1, 2, 3] 0
      = some ⟨-ENOMEM, 0, failed_write_dev, 4⟩ ∧
    byte_at failed_write_dev 0 = some (some 1) ∧ byte_at failed_write_dev 1 = some (some 2) ∧
    byte_at (scull_init_device ⟨2, 2⟩) 0 = none ∧ byte_at (scull_init_device ⟨2, 2⟩) 1 = none ∧
    -ENOMEM ≠ (2 : Int) :=
  ⟨rfl, rfl, rfl, rfl, rfl, by decide⟩

/-- C13, as the code has it. In every reachable state the size is 0 if no
write has run to its end since the device was set up or last trimmed, and
otherwise the largest end position `p + n` of a write that did, which for
`n ≥ 1` is 1 + the highest offset that write stored a byte into.  An empty
write counts with its cursor, and what a failed write stored does not count. -/
theorem logical_size_is_largest_end (P : Params) (dev : scull_dev) (m : Nat)
    (h : Traced P dev m) : dev.size = m := by
  induction h with
  | fresh => rfl
  | write_done env dev buf p w m _ hw hok ih =>
    obtain ⟨-, -, h⟩ := scull_write_size env dev buf p w hw
    rcases h with ⟨h, -, -⟩ | ⟨-, -, h⟩
    · rcases h with h | h
      · rw [h] at hok; simp only [ENOMEM] at hok; omega
      · rw [h] at hok; simp only [EFAULT] at hok; omega
    · rw [h, ih]
  | write_failed env dev buf p w m _ hw hf ih =>
    obtain ⟨-, -, h⟩ := scull_write_size env dev buf p w hw
    rcases h with ⟨-, h, -⟩ | ⟨h, -, -⟩
    · rw [h, ih]
    · rw [h] at hf; omega
  | read env dev count p r m _ hr ih =>
    rw [(scull_read_size env dev count p r hr).1, ih]
  | trim dev m _ _ => rfl
  | opened dev filp m _ ih =>
    split
    · rename_i h
      rw [(scull_open_dev P dev filp).1 h]; rfl
    · rename_i h
      rw [(scull_open_dev P dev filp).2 h, ih]

theorem logical_size_is_largest_end_witness :
    scull_write Env.reliable (scull_init_device ⟨2, 2⟩) [1, 2, 3, 4, 5, 6, 7] 1
      = some ⟨7, 8, two_segment_dev, 9⟩ ∧
    two_segment_dev.size = max 0 (1 + 7) :=
  ⟨rfl, logical_size_is_largest_end ⟨2, 2⟩ two_segment_dev (max 0 (1 + 7))
    (Traced.write_done Env.reliable (scull_init_device ⟨2, 2⟩) [1, 2, 3, 4, 5, 6, 7] 1
      ⟨7, 8, two_segment_dev, 9⟩ 0 Traced.fresh rfl rfl)⟩

/-- C13 as stated fails: an empty write at offset 5 of a fresh store with
quantum 2 and qset 2 stores no byte (no slot owns a block afterwards) and
raises the size from 0 to 5; and a write that fails after it has stored the
bytes 1 and 2 at the offsets 0 and 1 leaves the size 0. -/
theorem logical_size_counterexample :
    scull_write Env.reliable (scull_init_device ⟨2, 2⟩) [] 5
      = some ⟨0, 5, empty_write_dev, 4⟩ ∧
    (∀ g, slot_at empty_write_dev g = none) ∧
    (scull_init_device ⟨2, 2⟩).size = 0 ∧ empty_write_dev.size = 5 ∧
    scull_write fourth_kmalloc_fails (scull_init_device ⟨2, 2⟩) [1, 2, 3] 0
      = some ⟨-ENOMEM, 0, failed_write_dev, 4⟩ ∧
    byte_at failed_write_dev 1 = some (some 2) ∧ failed_write_dev.size = 0 :=
  ⟨rfl, empty_write_dev_slots, rfl, rfl, rfl, rfl, rfl⟩

/-- C14. The size never goes down except at a trim: on every store, a write
that returns (successful or failed) leaves a size at least the old one, a
read leaves the size, an open that does not trim leaves the device, and
`scull_trim`, called directly or by an open for write-only access without the
append flag, sets it to 0.  (`scull_llseek` has no access to the size.) -/
theorem logical_size_monotone (P : Params) (dev : scull_dev) :
    (∀ env buf p w, scull_write env dev buf p = some w → dev.size ≤ w.dev.size) ∧
    (∀ env count p r, scull_read env dev count p = some r → r.dev.size = dev.size) ∧
    (∀ filp : file, ¬ ((filp.f_flags &&& O_ACCMODE) = O_WRONLY ∧ (filp.f_flags &&& O_APPEND) = 0) →
      (scull_open P dev filp).dev = dev) ∧
    (∀ filp : file, (filp.f_flags &&& O_ACCMODE) = O_WRONLY ∧ (filp.f_flags &&& O_APPEND) = 0 →
      (scull_open P dev filp).dev = (scull_trim P dev).2 ∧ (scull_open P dev filp).dev.size = 0) ∧
    (scull_trim P dev).2.size = 0 := by
  refine ⟨?_, ?_, ?_, ?_, rfl⟩
  · intro env buf p w hw
    obtain ⟨-, -, h⟩ := scull_write_size env dev buf p w hw
    rcases h with ⟨-, h, -⟩ | ⟨-, -, h⟩
    · omega
    · rw [h]; exact Nat.le_max_left _ _
  · intro env count p r hr
    exact (scull_read_size env dev count p r hr).1
  · intro filp h
    exact (scull_open_dev P dev filp).2 h
  · intro filp h
    have := (scull_open_dev P dev filp).1 h
    exact ⟨this, by rw [this]; rfl⟩

/-- C16, as the code has it. `scull_init_module` does not look at
`scull_quantum` and `scull_qset`: its return value is the same for all their
values, and when the device numbers, the class and the device array are
obtained it returns 0 and sets up every device with exactly the values
given, zero and negative ones too.  On a device with quantum or qset 0 every
`scull_write` divides by zero. -/
theorem scull_init_module_unchecked (K : InitEnv) (M : ModuleParams) :
    (∀ quantum qset : Int,
      (scull_init_module K { M with scull_quantum := quantum, scull_qset := qset }).1
        = (scull_init_module K M).1) ∧
    (0 ≤ K.chrdev_result → K.class_ok = true → K.kmalloc_ok = true →
      scull_init_module K M
        = (0, some (List.replicate M.scull_nr_devs.toNat ⟨M.scull_quantum, M.scull_qset⟩))) ∧
    (∀ (P : Params) (env : Env) (buf : List Byte) (p : Nat),
      P.scull_quantum = 0 ∨ P.scull_qset = 0 →
      scull_write env (scull_init_device P) buf p = none) := by
  refine ⟨?_, ?_, ?_⟩
  · intro quantum qset
    simp only [scull_init_module]
    split
    · rfl
    · split
      · rfl
      · split <;> rfl
  · intro h1 h2 h3
    simp [scull_init_module, Int.not_lt.mpr h1, h2, h3]
  · intro P env buf p h
    exact scull_write_none env (scull_init_device P) buf p (itemsize_zero _ _ h)

/-- C16 as stated fails: with quantum 0 (and with quantum -4000, qset -1000)
`scull_init_module` returns 0, not `-EINVAL`, and each of the 4 devices has
the quantum given; the device with quantum 0 is in use, and a write to it
divides by zero. -/
theorem scull_init_module_counterexample :
    scull_init_module ⟨0, true, true⟩ ⟨0, 0, 4, 0, 1000⟩
      = (0, some (List.replicate 4 ⟨0, 1000⟩)) ∧
    scull_init_module ⟨0, true, true⟩ ⟨0, 0, 4, -4000, -1000⟩
      = (0, some (List.replicate 4 ⟨-4000, -1000⟩)) ∧
    (0 : Int) ≠ -EINVAL ∧
    (⟨0, 1000⟩ : raw_dev).dev = some (scull_init_device ⟨0, 1000⟩) ∧
    scull_write Env.reliable (scull_init_device ⟨0, 1000⟩) [65] 0 = none :=
  ⟨rfl, rfl, by decide, rfl, rfl⟩

/-- C17. Resolve-or-create traversal: when no allocation fails, `scull_follow`
on a chain of length `L` returns the node at position `n` of the resulting
chain, which is the old chain followed by `n + 1 - L` empty quantum sets, so
has length `max L (n + 1)`, begins with the old nodes unchanged and in order,
and holds no slot array in any new node. -/
theorem scull_follow_resolves (env : Env) (ha : env.no_alloc_failure) (a : Nat)
    (chain : List scull_qset) (n : Nat) :
    ∃ qs next, (scull_follow env a chain n).qs = some (qs, next) ∧
      (scull_follow env a chain n).chain[n]? = some qs ∧
      (scull_follow env a chain n).chain.drop n = qs :: next ∧
      (scull_follow env a chain n).chain
        = chain ++ List.replicate (n + 1 - chain.length) empty_qset ∧
      (scull_follow env a chain n).chain.length = max chain.length (n + 1) ∧
      (scull_follow env a chain n).chain.take chain.length = chain ∧
      (∀ i, chain.length ≤ i → i < (scull_follow env a chain n).chain.length →
        (scull_follow env a chain n).chain[i]? = some ⟨none⟩) := by
  obtain ⟨m, hm1, hm2, hm3, hm4⟩ := scull_follow_spec env a chain n
  have hne := hm4 (Or.inl ha)
  cases hqs : (scull_follow env a chain n).qs with
  | none => exact absurd hqs hne
  | some x =>
    obtain ⟨qs, next⟩ := x
    obtain ⟨hb, hm⟩ := hm3 _ hqs
    have hc : (scull_follow env a chain n).chain
        = (scull_follow env a chain n).before ++ qs :: next := by
      simp [Follow.chain, hqs]
    subst hm
    refine ⟨qs, next, rfl, ?_, ?_, hm1, ?_, ?_, ?_⟩
    · rw [hc, List.getElem?_append_right (by omega), hb]
      simp
    · rw [hc]
      exact List.drop_left' hb
    · rw [hm1]
      simp
      omega
    · rw [hm1]
      simp
    · intro i hi hlt
      rw [hm1] at hlt ⊢
      simp at hlt
      rw [List.getElem?_append_right hi, List.getElem?_replicate]
      simp [empty_qset]
      omega

theorem scull_follow_resolves_witness :
    ∃ qs next, (scull_follow Env.reliable 0 one_byte_dev.data 3).qs = some (qs, next) ∧
      (scull_follow Env.reliable 0 one_byte_dev.data 3).chain[3]? = some qs ∧
      (scull_follow Env.reliable 0 one_byte_dev.data 3).chain.drop 3 = qs :: next ∧
      (scull_follow Env.reliable 0 one_byte_dev.data 3).chain
        = one_byte_dev.data ++ List.replicate (3 + 1 - one_byte_dev.data.length) empty_qset ∧
      (scull_follow Env.reliable 0 one_byte_dev.data 3).chain.length
        = max one_byte_dev.data.length (3 + 1) ∧
      (scull_follow Env.reliable 0 one_byte_dev.data 3).chain.take one_byte_dev.data.length
        = one_byte_dev.data ∧
      (∀ i, one_byte_dev.data.length ≤ i →
        i < (scull_follow Env.reliable 0 one_byte_dev.data 3).chain.length →
        (scull_follow Env.reliable 0 one_byte_dev.data 3).chain[i]? = some ⟨none⟩) :=
  scull_follow_resolves Env.reliable (fun _ => rfl) 0 one_byte_dev.data 3

end Scull
